import Mathlib

/-!
# Switching-times NLP adapter: a shallow embedding of `SwitchingTimes::Plant`

The development follows `src/src/switching-times.hpp` and `src/main.cpp`.

Modelling conventions
* The scalar type `double` is a type parameter `α`; every definition asks only for the
  operations the source uses on it (`0`, `1`, unary minus, subtraction), so the
  definitions can be run on `Int` or `Rat`.  Algebraic laws are assumed only by the
  theorems that need them; `Dbl` evaluates the same definitions in double arithmetic
  on integral, infinite and NaN values.
* An Eigen vector (`vector<double>`) is a `List α`; `v.size()` is `v.length`;
  a coefficient read `v(k)` is `v[k]?` and is fallible (out of range has no result).
* A raw pointer argument of a solver callback (`Number*`, `Index*`) is the memory it
  points to, indexed by offset: a `Buf`.  A store `p[i] = v` is `Buf.write`.
* `Eigen::Index` / `Ipopt::Index` values are unbounded integers: vector sizes are
  assumed to fit the machine `int`.  Loop counters start at `0` and only increase, so
  they are natural numbers; a loop bound `_tmp - 1` uses truncated subtraction, which
  gives the same number of iterations as the signed bound (`0` when `_tmp = 0`).
* The differentiation engine (CppAD) is external.  A recorded tape is modelled by the
  data that the recording reads, the engine's `Jacobian` is a parameter, and every
  gradient request reports the engine calls it made.
-/

set_option linter.unusedVariables false

namespace SwitchingTimes

/-! ## Loops and buffers -/

/-- Counted loop `for (int k = 0; k < n; ++k) body`: runs `body 0`, ..., `body (n-1)` in
this order on the mutated state. -/
def forLoop {σ : Type} (n : Nat) (body : Nat → σ → σ) (s : σ) : σ :=
  match n with
  | 0 => s
  | k + 1 => body k (forLoop k body s)

/-- Counted loop whose body can fail (a checked Eigen coefficient access). -/
def forLoopM {σ : Type} (n : Nat) (body : Nat → σ → Option σ) (s : σ) : Option σ :=
  match n with
  | 0 => some s
  | k + 1 => (forLoopM k body s).bind (body k)

/-- Memory behind a raw pointer, indexed by offset. -/
abbrev Buf (α : Type) := Nat → α

/-- Store `b[i] = v`. -/
def Buf.write {α : Type} (b : Buf α) (i : Nat) (v : α) : Buf α :=
  fun j => if j = i then v else b j

/-- Checked coefficient store `v(i) = a` of an Eigen vector. -/
def coeffSet {α : Type} (v : List α) (i : Nat) (a : α) : Option (List α) :=
  if i < v.length then some (v.set i a) else none

/-! ## The differentiation engine's tape and the adapter state -/

/-- Tape `CppAD::ADFun<double>`.  The operation sequence recorded between
`CppAD::Independent(p_indep, _, _, p_dynamic_x0)` and `ad_function(p_indep, _out)` is
determined by what `objective_wrapper` reads while recording: the independent vector,
the dynamic parameter vector, and the members `_p_const`, `_x0.size()`, `_t0`, `_tf`,
`_dt`.  The tape is represented by these data. -/
structure ad_function (α : Type) where
  /-- independent variables at recording time (`p_indep`) -/
  indep : List α
  /-- dynamic parameter vector (`p_dynamic_x0`), replaced by `new_dynamic` -/
  dynamic : List α
  /-- `_p_const` as read during the recording -/
  p_const : List α
  /-- `_x0.size()` as read during the recording -/
  x0_size : Nat
  /-- `_t0` as read during the recording -/
  t0 : α
  /-- `_tf` as read during the recording -/
  tf : α
  /-- `_dt` as read during the recording -/
  dt : α
deriving DecidableEq

/-- Member variables of `class Plant`. -/
structure Plant (α : Type) where
  _p_const : List α
  _p_dynamic : List α
  _p_opt : List α
  _p_opt_ipopt : List α
  _lower_bound : List α
  _upper_bound : List α
  _on_bound : List α
  _off_bound : List α
  _t0 : α
  _tf : α
  _dt : α
  _x0 : List α
  objective_tape : ad_function α
  new_tape : Bool
  new_dynamic : Bool
  _status_init : Int
  _status_solve : Int
deriving DecidableEq

/-! ## Constraint values: `Plant::eval_g` -/

/-- `Plant::eval_g`: returns the status flag and the constraint buffer `g` after the
call. -/
def eval_g {α : Type} [Sub α] (P : Plant α) (n : Int) (x : Buf α) (new_x : Bool)
    (m : Int) (g : Buf α) : Bool × Buf α :=
  let _tmp := P._p_opt.length / 2
  let g := forLoop _tmp (fun k g => g.write k (x (_tmp + k) - x k)) g
  let g := forLoop (_tmp - 1) (fun k g => g.write (_tmp + k) (x (k + 1) - x (_tmp + k))) g
  (true, g)

/-! ## Constraint Jacobian: `Plant::eval_jac_g` -/

/-- Loop state of the structure branch of `eval_jac_g`: the two index buffers and the
running `_count`. -/
structure TripletCursor where
  iRow : Buf Int
  jCol : Buf Int
  _count : Nat

/-- Loop state of the values branch of `eval_jac_g`. -/
structure ValueCursor (α : Type) where
  values : Buf α
  _count : Nat

/-- What a call of `eval_jac_g` leaves behind: the return flag and the three output
buffers (`values` is absent when the caller passed `NULL`). -/
structure JacobianBuffers (α : Type) where
  ret : Bool
  iRow : Buf Int
  jCol : Buf Int
  values : Option (Buf α)

/-- `Plant::eval_jac_g`.  `values = none` is the call with `values == NULL`. -/
def eval_jac_g {α : Type} [One α] [Neg α] (P : Plant α) (n : Int) (x : Buf α)
    (new_x : Bool) (m : Int) (nele_jac : Int) (iRow jCol : Buf Int)
    (values : Option (Buf α)) : JacobianBuffers α :=
  match values with
  | none =>
    let _tmp := P._p_opt.length / 2
    let s : TripletCursor := ⟨iRow, jCol, 0⟩
    let s := forLoop _tmp (fun k s =>
      let s : TripletCursor := ⟨s.iRow.write s._count k, s.jCol.write s._count k, s._count⟩
      let s : TripletCursor := ⟨s.iRow, s.jCol, s._count + 1⟩
      let s : TripletCursor :=
        ⟨s.iRow.write s._count k, s.jCol.write s._count ((_tmp + k : Nat) : Int), s._count⟩
      ⟨s.iRow, s.jCol, s._count + 1⟩) s
    let s := forLoop (_tmp - 1) (fun k s =>
      let s : TripletCursor :=
        ⟨s.iRow.write s._count ((_tmp + k : Nat) : Int),
         s.jCol.write s._count ((k + 1 : Nat) : Int), s._count⟩
      let s : TripletCursor := ⟨s.iRow, s.jCol, s._count + 1⟩
      let s : TripletCursor :=
        ⟨s.iRow.write s._count ((_tmp + k : Nat) : Int),
         s.jCol.write s._count ((_tmp + k : Nat) : Int), s._count⟩
      ⟨s.iRow, s.jCol, s._count + 1⟩) s
    ⟨true, s.iRow, s.jCol, none⟩
  | some values =>
    let _tmp := P._p_opt.length / 2
    let s : ValueCursor α := ⟨values, 0⟩
    let s := forLoop _tmp (fun k s =>
      let s : ValueCursor α := ⟨s.values.write s._count (-1), s._count⟩
      let s : ValueCursor α := ⟨s.values, s._count + 1⟩
      let s : ValueCursor α := ⟨s.values.write s._count 1, s._count⟩
      ⟨s.values, s._count + 1⟩) s
    let s := forLoop (_tmp - 1) (fun k s =>
      let s : ValueCursor α := ⟨s.values.write s._count 1, s._count⟩
      let s : ValueCursor α := ⟨s.values, s._count + 1⟩
      let s : ValueCursor α := ⟨s.values.write s._count (-1), s._count⟩
      ⟨s.values, s._count + 1⟩) s
    ⟨true, iRow, jCol, some s.values⟩

/-! ## Problem dimensions: `Plant::get_nlp_info` -/

/-- `TNLP::IndexStyleEnum`. -/
inductive IndexStyleEnum where
  | C_STYLE
  | FORTRAN_STYLE
deriving DecidableEq

/-- Values stored by `get_nlp_info` through its reference arguments, and its return
flag. -/
structure NlpInfo where
  ret : Bool
  n : Int
  m : Int
  nnz_jac_g : Int
  nnz_h_lag : Int
  index_style : IndexStyleEnum
deriving DecidableEq

/-- `Plant::get_nlp_info`. -/
def get_nlp_info {α : Type} (P : Plant α) : NlpInfo :=
  let n : Int := P._p_opt.length
  let m : Int := (P._p_opt.length : Int) - 1
  let nnz_jac_g : Int := 2 * m
  let nnz_h_lag : Int := 0
  let index_style := IndexStyleEnum.C_STYLE
  ⟨true, n, m, nnz_jac_g, nnz_h_lag, index_style⟩

/-! ## Bounds: `Plant::get_bounds_info` -/

/-- Buffers after a call of `get_bounds_info`, and its return flag. -/
structure BoundsInfo (α : Type) where
  ret : Bool
  x_l : Buf α
  x_u : Buf α
  g_l : Buf α
  g_u : Buf α

/-- Loop state of the constraint-bound loops of `get_bounds_info`. -/
structure BoundCursor (α : Type) where
  g_l : Buf α
  g_u : Buf α

/-- `Plant::get_bounds_info`.  The coefficient reads `_lower_bound(k)`, `_on_bound(0)`,
... are checked: the call has no result when one of them is out of range. -/
def get_bounds_info {α : Type} (P : Plant α) (n : Int) (x_l x_u : Buf α) (m : Int)
    (g_l g_u : Buf α) : Option (BoundsInfo α) := do
  let x_l ← forLoopM P._lower_bound.length
    (fun k x_l => do let v ← P._lower_bound[k]?; pure (x_l.write k v)) x_l
  let x_u ← forLoopM P._upper_bound.length
    (fun k x_u => do let v ← P._upper_bound[k]?; pure (x_u.write k v)) x_u
  let _tmp := P._p_opt.length / 2
  let s : BoundCursor α := ⟨g_l, g_u⟩
  let s ← forLoopM _tmp (fun k s => do
    let lo ← P._on_bound[0]?
    let s : BoundCursor α := ⟨s.g_l.write k lo, s.g_u⟩
    let hi ← P._on_bound[1]?
    pure ⟨s.g_l, s.g_u.write k hi⟩) s
  let s ← forLoopM (_tmp - 1) (fun k s => do
    let lo ← P._off_bound[0]?
    let s : BoundCursor α := ⟨s.g_l.write (_tmp + k) lo, s.g_u⟩
    let hi ← P._off_bound[1]?
    pure ⟨s.g_l, s.g_u.write (_tmp + k) hi⟩) s
  pure ⟨true, x_l, x_u, s.g_l, s.g_u⟩

/-! ## Setters -/

/-- `Plant::set_p_const`. -/
def set_p_const {α : Type} (P : Plant α) (p_const : List α) : Plant α :=
  let P := if p_const.length ≠ P._p_const.length then { P with new_tape := true } else P
  { P with _p_const := p_const }

/-- `Plant::set_p_dynamic`. -/
def set_p_dynamic {α : Type} (P : Plant α) (p_dynamic : List α) : Plant α :=
  let P := if p_dynamic.length ≠ P._p_dynamic.length then { P with new_tape := true } else P
  let P := { P with new_dynamic := true }
  { P with _p_dynamic := p_dynamic }

/-- `Plant::set_p_optimize`. -/
def set_p_optimize {α : Type} [Zero α] (P : Plant α) (p_opt : List α) : Plant α :=
  let P := if p_opt.length ≠ P._p_opt.length then { P with new_tape := true } else P
  let P := { P with _p_opt := p_opt }
  { P with _p_opt_ipopt := List.replicate p_opt.length 0 }

/-- `Plant::set_t0`. -/
def set_t0 {α : Type} (P : Plant α) (t0 : α) : Plant α := { P with _t0 := t0 }

/-- `Plant::set_tf`. -/
def set_tf {α : Type} (P : Plant α) (tf : α) : Plant α := { P with _tf := tf }

/-- `Plant::set_dt`. -/
def set_dt {α : Type} (P : Plant α) (dt : α) : Plant α := { P with _dt := dt }

/-- `Plant::set_lower_bound`. -/
def set_lower_bound {α : Type} (P : Plant α) (lower_bound : List α) : Plant α :=
  { P with _lower_bound := lower_bound }

/-- `Plant::set_upper_bound`. -/
def set_upper_bound {α : Type} (P : Plant α) (upper_bound : List α) : Plant α :=
  { P with _upper_bound := upper_bound }

/-- `Plant::set_on_bound`. -/
def set_on_bound {α : Type} (P : Plant α) (on_bound : List α) : Plant α :=
  { P with _on_bound := on_bound }

/-- `Plant::set_off_bound`. -/
def set_off_bound {α : Type} (P : Plant α) (off_bound : List α) : Plant α :=
  { P with _off_bound := off_bound }

/-- `Plant::set_x0`. -/
def set_x0 {α : Type} (P : Plant α) (x0 : List α) : Plant α :=
  let P := if x0.length ≠ P._x0.length then { P with new_tape := true } else P
  { P with _x0 := x0 }

/-! ## Gradient requests: `Plant::jacobian` and `Plant::eval_grad_f` -/

/-- Calls made to the differentiation engine during a gradient request, in order. -/
inductive TapeCall (α : Type) where
  /-- recording of a fresh tape: `CppAD::Independent(p_indep, _, _, p_dynamic_x0)`
  followed by `ad_function(p_indep, _out)` -/
  | record (p_indep : List α) (p_dynamic_x0 : List α)
  /-- in-place refresh `objective_tape.new_dynamic(p_dynamic_x0)` -/
  | new_dynamic (p_dynamic_x0 : List α)
  /-- evaluation `objective_tape.Jacobian(p_opt)` -/
  | Jacobian (p_opt : List α)
deriving DecidableEq

/-- Result of a gradient request: the returned vector, the adapter afterwards, and the
engine calls made. -/
structure GradientResult (α : Type) where
  value : List α
  plant : Plant α
  calls : List (TapeCall α)
deriving DecidableEq

/-- The element-by-element copy `for (k < src.size()) dst(off + k) = src(k)` of one
Eigen vector into another, with checked accesses. -/
def copyInto {α : Type} (src : List α) (off : Nat) (dst : List α) : Option (List α) :=
  forLoopM src.length (fun k dst => do let a ← src[k]?; coeffSet dst (off + k) a) dst

/-- The constants vector built at lines 157-159 and 173-175: a zero vector of size
`_p_dynamic.size() + _x0.size()` whose head is overwritten by `_p_dynamic` and whose
tail, from offset `size - _x0.size()`, by `_x0`. -/
def fill_p_dynamic_x0 {α : Type} [Zero α] (P : Plant α) : Option (List α) := do
  let p_dynamic_x0 : List α := List.replicate (P._p_dynamic.length + P._x0.length) 0
  let p_dynamic_x0 ← copyInto P._p_dynamic 0 p_dynamic_x0
  copyInto P._x0 (p_dynamic_x0.length - P._x0.length) p_dynamic_x0

/-- `Plant::jacobian`, for an engine whose `ADFun::Jacobian` is `J`.  The recording
pass `objective_wrapper(p_dynamic_x0, p_indep)` runs inside the engine; what it reads is
stored in the tape. -/
def jacobian {α : Type} [Zero α] (J : ad_function α → List α → List α) (P : Plant α)
    (p_opt : List α) : Option (GradientResult α) := do
  let s : Plant α × List (TapeCall α) := (P, [])
  let s ←
    if s.1.new_tape then do
      let p_dynamic_x0 ← fill_p_dynamic_x0 s.1
      let p_indep : List α := List.replicate p_opt.length 0
      let p_indep ← copyInto p_opt 0 p_indep
      let tape : ad_function α :=
        ⟨p_indep, p_dynamic_x0, s.1._p_const, s.1._x0.length, s.1._t0, s.1._tf, s.1._dt⟩
      pure ({ s.1 with objective_tape := tape, new_tape := false },
        s.2 ++ [TapeCall.record p_indep p_dynamic_x0])
    else pure s
  let s ←
    if s.1.new_dynamic then do
      let p_dynamic_x0 ← fill_p_dynamic_x0 s.1
      let tape : ad_function α := { s.1.objective_tape with dynamic := p_dynamic_x0 }
      pure ({ s.1 with objective_tape := tape, new_dynamic := false },
        s.2 ++ [TapeCall.new_dynamic p_dynamic_x0])
    else pure s
  pure ⟨J s.1.objective_tape p_opt, s.1, s.2 ++ [TapeCall.Jacobian p_opt]⟩

/-- Result of `eval_grad_f`: return flag, the gradient buffer, the adapter afterwards,
and the engine calls made. -/
structure GradFResult (α : Type) where
  ret : Bool
  grad_f : Buf α
  plant : Plant α
  calls : List (TapeCall α)

/-- `Plant::eval_grad_f`. -/
def eval_grad_f {α : Type} [Zero α] (J : ad_function α → List α → List α) (P : Plant α)
    (n : Int) (x : Buf α) (new_x : Bool) (grad_f : Buf α) : Option (GradFResult α) := do
  let p_opt : List α := List.replicate P._p_opt.length 0
  let p_opt ← forLoopM p_opt.length (fun k p_opt => coeffSet p_opt k (x k)) p_opt
  let r ← jacobian J P p_opt
  let _grad := r.value
  let grad_f ← forLoopM p_opt.length
    (fun k grad_f => do let v ← _grad[k]?; pure (grad_f.write k v)) grad_f
  pure ⟨true, grad_f, r.plant, r.calls⟩

/-! ## Getters -/

/-- `Plant::get_p_const`. -/
def get_p_const {α : Type} (P : Plant α) : List α := P._p_const

/-- `Plant::get_p_dynamic`. -/
def get_p_dynamic {α : Type} (P : Plant α) : List α := P._p_dynamic

/-- `Plant::get_p_optimize`. -/
def get_p_optimize {α : Type} (P : Plant α) : List α := P._p_opt

/-- `Plant::get_p_optimize_ipopt`. -/
def get_p_optimize_ipopt {α : Type} (P : Plant α) : List α := P._p_opt_ipopt

/-- `Plant::get_t0`. -/
def get_t0 {α : Type} (P : Plant α) : α := P._t0

/-- `Plant::get_tf`. -/
def get_tf {α : Type} (P : Plant α) : α := P._tf

/-- `Plant::get_dt`. -/
def get_dt {α : Type} (P : Plant α) : α := P._dt

/-- `Plant::get_x0`. -/
def get_x0 {α : Type} (P : Plant α) : List α := P._x0

/-- `Plant::get_lower_bound`. -/
def get_lower_bound {α : Type} (P : Plant α) : List α := P._lower_bound

/-- `Plant::get_upper_bound` (line 104: the body returns `_lower_bound`). -/
def get_upper_bound {α : Type} (P : Plant α) : List α := P._lower_bound

/-- `Plant::get_on_bound`. -/
def get_on_bound {α : Type} (P : Plant α) : List α := P._on_bound

/-- `Plant::get_off_bound`. -/
def get_off_bound {α : Type} (P : Plant α) : List α := P._off_bound

/-- `Plant::get_init_status`. -/
def get_init_status {α : Type} (P : Plant α) : Int := P._status_init

/-- `Plant::get_solve_status`. -/
def get_solve_status {α : Type} (P : Plant α) : Int := P._status_solve

/-! ## Finalisation and the solve driver -/

/-- `Plant::finalize_solution`: the loop stores `x[k]` into `_p_opt_ipopt(k)` for
`k < _p_opt.size()` with checked coefficient stores.  The arguments `ip_data` and
`ip_cq` point to solver objects and are not read. -/
def finalize_solution {α : Type} (P : Plant α) (status : Int) (n : Int) (x z_L z_U : Buf α)
    (m : Int) (g lambda : Buf α) (obj_value : α) : Option (Plant α) := do
  let _p_opt_ipopt ←
    forLoopM P._p_opt.length (fun k v => coeffSet v k (x k)) P._p_opt_ipopt
  pure { P with _p_opt_ipopt := _p_opt_ipopt }

/-- `NLP::solve`.  The solver is external: `Initialize` is the status returned by
`app->Initialize()`, and `OptimizeTNLP` is the solver run, which receives the adapter,
drives its callbacks, and returns its status and the adapter as the callbacks left it.
The option settings concern the solver only. -/
def solve {α : Type} (Initialize : Int) (OptimizeTNLP : Plant α → Int × Plant α)
    (plant : Plant α) : Plant α :=
  let plant := { plant with _status_init := Initialize }
  let r := OptimizeTNLP plant
  { r.2 with _status_solve := r.1 }

/-- What can happen to the adapter between `set_p_optimize` and `finalize_solution`:
a call of any other setter, or a gradient request. -/
inductive Mutation (α : Type) where
  | set_p_const (p_const : List α)
  | set_p_dynamic (p_dynamic : List α)
  | set_t0 (t0 : α)
  | set_tf (tf : α)
  | set_dt (dt : α)
  | set_lower_bound (lower_bound : List α)
  | set_upper_bound (upper_bound : List α)
  | set_on_bound (on_bound : List α)
  | set_off_bound (off_bound : List α)
  | set_x0 (x0 : List α)
  | jacobian (p_opt : List α)

/-- The adapter after one `Mutation`. -/
def Mutation.run {α : Type} [Zero α] (J : ad_function α → List α → List α) :
    Mutation α → Plant α → Plant α
  | .set_p_const v, P => SwitchingTimes.set_p_const P v
  | .set_p_dynamic v, P => SwitchingTimes.set_p_dynamic P v
  | .set_t0 a, P => SwitchingTimes.set_t0 P a
  | .set_tf a, P => SwitchingTimes.set_tf P a
  | .set_dt a, P => SwitchingTimes.set_dt P a
  | .set_lower_bound v, P => SwitchingTimes.set_lower_bound P v
  | .set_upper_bound v, P => SwitchingTimes.set_upper_bound P v
  | .set_on_bound v, P => SwitchingTimes.set_on_bound P v
  | .set_off_bound v, P => SwitchingTimes.set_off_bound P v
  | .set_x0 v, P => SwitchingTimes.set_x0 P v
  | .jacobian p_opt, P =>
    match SwitchingTimes.jacobian J P p_opt with
    | some r => r.plant
    | none => P

/-- The adapter after a sequence of `Mutation`s, first to last. -/
def runMutations {α : Type} [Zero α] (J : ad_function α → List α → List α)
    (ops : List (Mutation α)) (P : Plant α) : Plant α :=
  ops.foldl (fun P op => op.run J P) P

/-! ## The configuration built by `main` -/

/-- A freshly constructed `Plant`: empty vectors and tape, `new_tape = true`,
`new_dynamic = false`; the members without initialiser hold the given values. -/
def Plant.fresh {α : Type} (t0 tf dt : α) (status_init status_solve : Int) : Plant α :=
  { _p_const := [], _p_dynamic := [], _p_opt := [], _p_opt_ipopt := [],
    _lower_bound := [], _upper_bound := [], _on_bound := [], _off_bound := [],
    _t0 := t0, _tf := tf, _dt := dt, _x0 := [],
    objective_tape := ⟨[], [], [], 0, t0, tf, dt⟩,
    new_tape := true, new_dynamic := false,
    _status_init := status_init, _status_solve := status_solve }

/-- Number of regime switches `n_s` in `main`. -/
def main_n_s : Nat := 10

/-- `on_bound` of `main`. -/
def main_on_bound : List Int := [6, 60]

/-- `off_bound` of `main`. -/
def main_off_bound : List Int := [20, 120]

/-- Starting guess `p_opt` of `main` (lines 30-44): `on` is the segment at offset `0`,
`off` the segment at offset `n_s`. -/
def main_p_opt : List Int :=
  let p_opt : List Int := List.replicate (main_n_s * 2) 0
  let onAt := fun (k : Nat) => k
  let offAt := fun (k : Nat) => main_n_s + k
  let p_opt := p_opt.set (offAt 0) (p_opt.getD (onAt 0) 0 + main_on_bound.getD 0 0 + 1)
  forLoop (main_n_s - 1) (fun j p_opt =>
    let k := j + 1
    let p_opt :=
      p_opt.set (onAt k) (p_opt.getD (offAt (k - 1)) 0 + main_off_bound.getD 0 0 + 1)
    p_opt.set (offAt k) (p_opt.getD (onAt k) 0 + main_on_bound.getD 0 0 + 1)) p_opt

/-- Dynamic parameters `p_dynamic` of `main` (lines 18-24): 48 day-ahead prices followed
by 49 day-ahead times, the first and the last time moved outwards by 60. -/
def main_p_dynamic : List Int :=
  let p_dynamic : List Int := List.replicate (48 + 49) 0
  let dapAt := fun (k : Nat) => k
  let datAt := fun (k : Nat) => 48 + k
  let p_dynamic := forLoop 48 (fun k p_dynamic => p_dynamic.set (dapAt k) 10) p_dynamic
  let p_dynamic :=
    forLoop 49 (fun k p_dynamic => p_dynamic.set (datAt k) ((k : Int) * 60)) p_dynamic
  let p_dynamic := p_dynamic.set (datAt 0) (p_dynamic.getD (datAt 0) 0 - 60)
  p_dynamic.set (datAt 48) (p_dynamic.getD (datAt 48) 0 + 60)

/-- The adapter as `main` configures it before `solve`, for the members that hold
integral values there (dynamic parameters, decision variables, `t0`, `tf`, variable
bounds, regime bounds), set in the order of `main`; `p_const`, `dt` and `x0`, which are
not integral, are left as constructed. -/
def mainPlant : Plant Int :=
  let P : Plant Int := Plant.fresh 0 0 0 0 0
  let tf : Int := 6 * 60
  let P := set_p_dynamic P main_p_dynamic
  let P := set_p_optimize P main_p_opt
  let P := set_t0 P 0
  let P := set_tf P tf
  let P := set_lower_bound P (List.replicate main_p_opt.length 0)
  let P := set_upper_bound P (List.replicate main_p_opt.length tf)
  let P := set_on_bound P main_on_bound
  set_off_bound P main_off_bound

/-- A stand-in for the engine's `ADFun::Jacobian`, used for concrete instances: one
entry per independent variable, the sum of the tape's dynamic parameters. -/
def sampleJacobian (tape : ad_function Int) (x : List Int) : List Int :=
  List.replicate x.length tape.dynamic.sum

/-- A small adapter before its first gradient request: three dynamic parameters, two
decision variables and two initial state values set on a fresh adapter. -/
def untapedPlant : Plant Int :=
  let P : Plant Int := Plant.fresh 0 0 0 0 0
  let P := set_p_dynamic P [10, 0, 60]
  let P := set_p_optimize P [0, 7]
  set_x0 P [1, 0]

/-- The small adapter after one gradient request: it holds a recorded tape and both
flags are clear. -/
def tapedPlant : Plant Int :=
  match jacobian sampleJacobian untapedPlant [0, 7] with
  | some r => r.plant
  | none => untapedPlant

/-- Buffer holding the decision vector `[0, 7]`. -/
def smallX : Buf Int := fun i => [0, 7].getD i 0

/-- What the first `eval_grad_f` call on the small adapter returns. -/
def firstGradF : GradFResult Int :=
  (eval_grad_f sampleJacobian untapedPlant 2 smallX true (fun _ => 0)).getD
    ⟨false, fun _ => 0, untapedPlant, []⟩

/-- The starting guess of `main` as the buffer handed to the callbacks. -/
def main_x : Buf Int := fun i => main_p_opt.getD i 0

/-- A zero-initialised scalar buffer. -/
def zeroBuf : Buf Int := fun _ => 0

/-- A zero-initialised index buffer. -/
def zeroIdx : Buf Int := fun _ => 0

/-- The bounds `get_bounds_info` hands to the solver for `main`'s plant. -/
def mainBounds : BoundsInfo Int :=
  (get_bounds_info mainPlant 20 zeroBuf zeroBuf 19 zeroBuf zeroBuf).getD
    ⟨false, zeroBuf, zeroBuf, zeroBuf, zeroBuf⟩

/-- An adapter configured with sizes that do not fit together: three decision
variables (odd), one lower bound, two upper bounds, a three-entry `on_bound` and a
one-entry `off_bound`. -/
def mismatchedPlant : Plant Int :=
  let P : Plant Int := Plant.fresh 0 0 0 0 0
  let P := set_p_optimize P [0, 7, 28]
  let P := set_lower_bound P [0]
  let P := set_upper_bound P [9, 9]
  let P := set_on_bound P [6, 60, 99]
  set_off_bound P [20]

/-- A stand-in for the solver run that only asks `get_nlp_info` and reports the number
of variables as its status. -/
def probeSolver (P : Plant Int) : Int × Plant Int := ((get_nlp_info P).n, P)

/-! ## Double arithmetic on integral and special values -/

/-- The doubles whose value is an integer, the two infinities and NaN.  `fin z` stands
for the finite double of value `z` (the two zeros are not told apart).  On these values
the operations below are the IEEE 754 binary64 ones, rounding to nearest, ties to
even. -/
inductive Dbl where
  | fin (z : Int)
  | posInf
  | negInf
  | nan
deriving DecidableEq

/-- Number of low bits a magnitude has beyond a 53-bit significand (at most `fuel`). -/
def Dbl.excessBits : Nat → Nat → Nat
  | 0, _ => 0
  | fuel + 1, m => if m < 2 ^ 53 then 0 else Dbl.excessBits fuel (m / 2) + 1

/-- The double nearest to the integer `z`: the magnitude is cut to a 53-bit significand
`q` times `2 ^ s`, rounded to nearest with ties to the even significand; a rounded
magnitude of `2 ^ 1024` or more (`s > 971`, or `s = 971` with `q = 2 ^ 53`) gives an
infinity. -/
def Dbl.ofInt (z : Int) : Dbl :=
  let m := z.natAbs
  let s := Dbl.excessBits 1100 m
  let q := m / 2 ^ s
  let rem := m % 2 ^ s
  let q := if 2 ^ s < 2 * rem ∨ (2 * rem = 2 ^ s ∧ q % 2 = 1) then q + 1 else q
  if 971 < s ∨ (s = 971 ∧ q = 2 ^ 53) then (if z < 0 then Dbl.negInf else Dbl.posInf)
  else Dbl.fin (if z < 0 then -((q * 2 ^ s : Nat) : Int) else ((q * 2 ^ s : Nat) : Int))

/-- Unary minus of doubles. -/
def Dbl.neg : Dbl → Dbl
  | .fin a => .fin (-a)
  | .posInf => .negInf
  | .negInf => .posInf
  | .nan => .nan

/-- Addition of doubles. -/
def Dbl.add : Dbl → Dbl → Dbl
  | .nan, _ => .nan
  | _, .nan => .nan
  | .posInf, .negInf => .nan
  | .negInf, .posInf => .nan
  | .posInf, _ => .posInf
  | _, .posInf => .posInf
  | .negInf, _ => .negInf
  | _, .negInf => .negInf
  | .fin a, .fin b => Dbl.ofInt (a + b)

/-- Subtraction of doubles: `a - b` is `a + (-b)`. -/
def Dbl.sub (a b : Dbl) : Dbl := Dbl.add a (Dbl.neg b)

/-- Multiplication of doubles: zero times an infinity is NaN. -/
def Dbl.mul : Dbl → Dbl → Dbl
  | .nan, _ => .nan
  | _, .nan => .nan
  | .fin a, .fin b => Dbl.ofInt (a * b)
  | .fin a, .posInf => if a = 0 then .nan else if a < 0 then .negInf else .posInf
  | .fin a, .negInf => if a = 0 then .nan else if a < 0 then .posInf else .negInf
  | .posInf, .fin b => if b = 0 then .nan else if b < 0 then .negInf else .posInf
  | .negInf, .fin b => if b = 0 then .nan else if b < 0 then .posInf else .negInf
  | .posInf, .posInf => .posInf
  | .posInf, .negInf => .negInf
  | .negInf, .posInf => .negInf
  | .negInf, .negInf => .posInf

instance : Zero Dbl := ⟨Dbl.fin 0⟩

instance : One Dbl := ⟨Dbl.fin 1⟩

instance : Neg Dbl := ⟨Dbl.neg⟩

instance : Add Dbl := ⟨Dbl.add⟩

instance : Sub Dbl := ⟨Dbl.sub⟩

instance : Mul Dbl := ⟨Dbl.mul⟩

/-- An adapter over doubles whose decision vector has `2n` entries. -/
def doublePlant (n : Nat) : Plant Dbl :=
  set_p_optimize (Plant.fresh (Dbl.fin 0) (Dbl.fin 0) (Dbl.fin 0) 0 0)
    (List.replicate (2 * n) (Dbl.fin 0))

/-- A zero-initialised buffer of doubles. -/
def zeroDbl : Buf Dbl := fun _ => Dbl.fin 0

/-- A point for `n = 2` with an infinite entry: `on = [0, inf]`, `off = [1, 2]`. -/
def xInf : Buf Dbl := fun i => [Dbl.fin 0, Dbl.posInf, Dbl.fin 1, Dbl.fin 2].getD i (Dbl.fin 0)

/-- A finite point for `n = 1`: `on = [1]`, `off = [2 ^ 54]`. -/
def xBig : Buf Dbl := fun i => [Dbl.fin 1, Dbl.fin (2 ^ 54)].getD i (Dbl.fin 0)

/-- A finite point for `n = 1`: `on = [0]`, `off = [2 ^ 54]`. -/
def yBig : Buf Dbl := fun i => [Dbl.fin 0, Dbl.fin (2 ^ 54)].getD i (Dbl.fin 0)

/-! ## The assembled constraint Jacobian -/

/-- Dense matrix assembled from `nele` sparse triplets: starting from the zero matrix,
the value of each triplet, first to last, is added to the entry at its row and column;
`assembleTriplets ... r c` is entry `(r, c)`. -/
def assembleTriplets {α : Type} [Zero α] [Add α] (nele : Nat) (iRow jCol : Buf Int)
    (values : Buf α) (r c : Nat) : α :=
  forLoop nele
    (fun p acc => if iRow p = (r : Int) ∧ jCol p = (c : Int) then acc + values p else acc) 0

/-- Matrix-vector product of a matrix with `cols` columns and a vector: row `r` is the
sum of `J r c * x c` accumulated for `c = 0, ..., cols - 1`. -/
def matVec {α : Type} [Zero α] [Add α] [Mul α] (cols : Nat) (J : Nat → Nat → α)
    (x : Buf α) (r : Nat) : α :=
  forLoop cols (fun c acc => acc + J r c * x c) 0

/-- The constraint Jacobian as the solver obtains it: the dimensions come from
`get_nlp_info`, the structure from a call of `eval_jac_g` without a values buffer, the
values from a call with one, and the triplets are assembled into a dense matrix. -/
def constraintJacobian {α : Type} [Zero α] [One α] [Neg α] [Add α] (P : Plant α)
    (x : Buf α) (iRow jCol : Buf Int) (values : Buf α) (r c : Nat) : α :=
  let info := get_nlp_info P
  let S := eval_jac_g P info.n x true info.m info.nnz_jac_g iRow jCol none
  let V := eval_jac_g P info.n x false info.m info.nnz_jac_g S.iRow S.jCol (some values)
  match V.values with
  | none => 0
  | some vals => assembleTriplets info.nnz_jac_g.toNat V.iRow V.jCol vals r c

/-! ## Closed forms used in the proofs -/

/-- Buffer left by a loop that, starting at offset `c`, stores `a k` and then `b k` at
consecutive offsets for `k = 0, ..., n-1`. -/
def pairFill {β : Type} (a b : Nat → β) (c n : Nat) (buf : Buf β) : Buf β :=
  fun j => if c ≤ j ∧ j < c + 2 * n then
      (if (j - c) % 2 = 0 then a ((j - c) / 2) else b ((j - c) / 2))
    else buf j

/-- Values buffer left by the values call of `eval_jac_g` when `_tmp = n`. -/
def filledValues {α : Type} [One α] [Neg α] (n : Nat) (values : Buf α) : Buf α :=
  pairFill (fun _ => (1 : α)) (fun _ => (-1 : α)) (2 * n) (n - 1)
    (pairFill (fun _ => (-1 : α)) (fun _ => (1 : α)) 0 n values)

/-- Tape held by the adapter after a gradient request at `p_opt`. -/
def tapeAfter {α : Type} (P : Plant α) (p_opt : List α) : ad_function α :=
  let tape : ad_function α :=
    if P.new_tape then
      ⟨p_opt, P._p_dynamic ++ P._x0, P._p_const, P._x0.length, P._t0, P._tf, P._dt⟩
    else P.objective_tape
  if P.new_dynamic then { tape with dynamic := P._p_dynamic ++ P._x0 } else tape

/-! ## Lemmas -/

theorem forLoop_write_apply {α : Type} (off : Nat) (f : Nat → α) (n : Nat) (b : Buf α)
    (j : Nat) :
    forLoop n (fun k b => b.write (off + k) (f k)) b j
      = if off ≤ j ∧ j < off + n then f (j - off) else b j := by
  induction n with
  | zero =>
    have h0 : ¬ (off ≤ j ∧ j < off + 0) := by omega
    rw [if_neg h0]
    rfl
  | succ n ih =>
    simp only [forLoop, Buf.write]
    by_cases h : j = off + n
    · subst h
      simp
    · rw [if_neg h, ih]
      by_cases h2 : off ≤ j ∧ j < off + n
      · have h3 : off ≤ j ∧ j < off + (n + 1) := by omega
        rw [if_pos h2, if_pos h3]
      · have h3 : ¬ (off ≤ j ∧ j < off + (n + 1)) := by omega
        rw [if_neg h2, if_neg h3]

theorem forLoop_write_apply_zero {α : Type} (f : Nat → α) (n : Nat) (b : Buf α)
    (j : Nat) :
    forLoop n (fun k b => b.write k (f k)) b j = if j < n then f j else b j := by
  have h := forLoop_write_apply 0 f n b j
  simp only [Nat.zero_add, Nat.zero_le, true_and, Nat.sub_zero] at h
  exact h

theorem pairFill_succ {β : Type} (a b : Nat → β) (c n : Nat) (buf : Buf β) :
    ((pairFill a b c n buf).write (c + 2 * n) (a n)).write (c + 2 * n + 1) (b n)
      = pairFill a b c (n + 1) buf := by
  funext j
  simp only [Buf.write, pairFill]
  by_cases h1 : j = c + 2 * n + 1
  · subst h1
    have e1 : c ≤ c + 2 * n + 1 ∧ c + 2 * n + 1 < c + 2 * (n + 1) := by omega
    have e2 : ¬ ((c + 2 * n + 1 - c) % 2 = 0) := by omega
    have e3 : (c + 2 * n + 1 - c) / 2 = n := by omega
    rw [if_pos rfl, if_pos e1, if_neg e2, e3]
  · rw [if_neg h1]
    by_cases h2 : j = c + 2 * n
    · subst h2
      have e1 : c ≤ c + 2 * n ∧ c + 2 * n < c + 2 * (n + 1) := by omega
      have e2 : (c + 2 * n - c) % 2 = 0 := by omega
      have e3 : (c + 2 * n - c) / 2 = n := by omega
      rw [if_pos rfl, if_pos e1, if_pos e2, e3]
    · rw [if_neg h2]
      by_cases h3 : c ≤ j ∧ j < c + 2 * n
      · have e1 : c ≤ j ∧ j < c + 2 * (n + 1) := by omega
        rw [if_pos h3, if_pos e1]
      · have e1 : ¬ (c ≤ j ∧ j < c + 2 * (n + 1)) := by omega
        rw [if_neg h3, if_neg e1]

theorem pairFill_zero {β : Type} (a b : Nat → β) (c : Nat) (buf : Buf β) :
    pairFill a b c 0 buf = buf := by
  funext j
  have e1 : ¬ (c ≤ j ∧ j < c + 2 * 0) := by omega
  simp only [pairFill]
  rw [if_neg e1]

theorem pairFill_even {β : Type} (a b : Nat → β) (c n : Nat) (buf : Buf β) (k : Nat)
    (hk : k < n) : pairFill a b c n buf (c + 2 * k) = a k := by
  have e1 : c ≤ c + 2 * k ∧ c + 2 * k < c + 2 * n := by omega
  have e2 : (c + 2 * k - c) % 2 = 0 := by omega
  have e3 : (c + 2 * k - c) / 2 = k := by omega
  simp only [pairFill]
  rw [if_pos e1, if_pos e2, e3]

theorem pairFill_odd {β : Type} (a b : Nat → β) (c n : Nat) (buf : Buf β) (k : Nat)
    (hk : k < n) : pairFill a b c n buf (c + 2 * k + 1) = b k := by
  have e1 : c ≤ c + 2 * k + 1 ∧ c + 2 * k + 1 < c + 2 * n := by omega
  have e2 : ¬ ((c + 2 * k + 1 - c) % 2 = 0) := by omega
  have e3 : (c + 2 * k + 1 - c) / 2 = k := by omega
  simp only [pairFill]
  rw [if_pos e1, if_neg e2, e3]

theorem pairFill_outside {β : Type} (a b : Nat → β) (c n : Nat) (buf : Buf β) (j : Nat)
    (hj : j < c ∨ c + 2 * n ≤ j) : pairFill a b c n buf j = buf j := by
  have e1 : ¬ (c ≤ j ∧ j < c + 2 * n) := by omega
  simp only [pairFill]
  rw [if_neg e1]

theorem tripletLoop (a1 b1 a2 b2 : Nat → Int) (n : Nat) (s : TripletCursor) :
    forLoop n (fun k s =>
        (⟨(s.iRow.write s._count (a1 k)).write (s._count + 1) (b1 k),
          (s.jCol.write s._count (a2 k)).write (s._count + 1) (b2 k),
          s._count + 1 + 1⟩ : TripletCursor)) s
      = ⟨pairFill a1 b1 s._count n s.iRow, pairFill a2 b2 s._count n s.jCol,
          s._count + 2 * n⟩ := by
  induction n with
  | zero => simp only [forLoop, pairFill_zero, Nat.mul_zero, Nat.add_zero]
  | succ n ih =>
    simp only [forLoop, ih, pairFill_succ]
    rfl

theorem valueLoop {α : Type} (a b : α) (n : Nat) (s : ValueCursor α) :
    forLoop n (fun k s =>
        (⟨(s.values.write s._count a).write (s._count + 1) b, s._count + 1 + 1⟩ :
          ValueCursor α)) s
      = ⟨pairFill (fun _ => a) (fun _ => b) s._count n s.values, s._count + 2 * n⟩ := by
  induction n with
  | zero => simp only [forLoop, pairFill_zero, Nat.mul_zero, Nat.add_zero]
  | succ n ih =>
    simp only [forLoop, ih]
    rw [pairFill_succ (fun _ => a) (fun _ => b)]
    rfl

/-- Closed form of the structure call of `eval_jac_g`. -/
theorem eval_jac_g_structure {α : Type} [One α] [Neg α] (P : Plant α) (n : Int)
    (x : Buf α) (new_x : Bool) (m nele_jac : Int) (iRow jCol : Buf Int) :
    eval_jac_g P n x new_x m nele_jac iRow jCol none =
      ⟨true,
       pairFill (fun k => ((P._p_opt.length / 2 + k : Nat) : Int))
         (fun k => ((P._p_opt.length / 2 + k : Nat) : Int))
         (2 * (P._p_opt.length / 2)) (P._p_opt.length / 2 - 1)
         (pairFill (fun k => (k : Int)) (fun k => (k : Int)) 0 (P._p_opt.length / 2) iRow),
       pairFill (fun k => ((k + 1 : Nat) : Int))
         (fun k => ((P._p_opt.length / 2 + k : Nat) : Int))
         (2 * (P._p_opt.length / 2)) (P._p_opt.length / 2 - 1)
         (pairFill (fun k => (k : Int)) (fun k => ((P._p_opt.length / 2 + k : Nat) : Int))
           0 (P._p_opt.length / 2) jCol),
       none⟩ := by
  simp only [eval_jac_g]
  rw [tripletLoop (fun k => (k : Int)) (fun k => (k : Int)) (fun k => (k : Int))
    (fun k => ((P._p_opt.length / 2 + k : Nat) : Int))]
  rw [tripletLoop (fun k => ((P._p_opt.length / 2 + k : Nat) : Int))
    (fun k => ((P._p_opt.length / 2 + k : Nat) : Int)) (fun k => ((k + 1 : Nat) : Int))
    (fun k => ((P._p_opt.length / 2 + k : Nat) : Int))]
  simp only [Nat.zero_add]

/-- Closed form of the values call of `eval_jac_g`. -/
theorem eval_jac_g_values {α : Type} [One α] [Neg α] (P : Plant α) (n : Int)
    (x : Buf α) (new_x : Bool) (m nele_jac : Int) (iRow jCol : Buf Int) (values : Buf α) :
    eval_jac_g P n x new_x m nele_jac iRow jCol (some values) =
      ⟨true, iRow, jCol,
       some (pairFill (fun _ => (1 : α)) (fun _ => (-1 : α))
         (2 * (P._p_opt.length / 2)) (P._p_opt.length / 2 - 1)
         (pairFill (fun _ => (-1 : α)) (fun _ => (1 : α)) 0 (P._p_opt.length / 2) values))⟩ := by
  simp only [eval_jac_g]
  rw [valueLoop (-1 : α) 1, valueLoop (1 : α) (-1)]
  simp only [Nat.zero_add]

theorem fill_first_even {β : Type} (a b a2 b2 : Nat → β) (n n2 : Nat) (buf : Buf β)
    (k : Nat) (hk : k < n) :
    pairFill a2 b2 (2 * n) n2 (pairFill a b 0 n buf) (2 * k) = a k := by
  rw [pairFill_outside a2 b2 (2 * n) n2 _ (2 * k) (by omega)]
  have h := pairFill_even a b 0 n buf k hk
  rw [Nat.zero_add] at h
  exact h

theorem fill_first_odd {β : Type} (a b a2 b2 : Nat → β) (n n2 : Nat) (buf : Buf β)
    (k : Nat) (hk : k < n) :
    pairFill a2 b2 (2 * n) n2 (pairFill a b 0 n buf) (2 * k + 1) = b k := by
  rw [pairFill_outside a2 b2 (2 * n) n2 _ (2 * k + 1) (by omega)]
  have h := pairFill_odd a b 0 n buf k hk
  rw [Nat.zero_add] at h
  exact h

theorem fill_beyond {β : Type} (a b a2 b2 : Nat → β) (n n2 : Nat) (buf : Buf β)
    (p : Nat) (hp : 2 * n + 2 * n2 ≤ p) :
    pairFill a2 b2 (2 * n) n2 (pairFill a b 0 n buf) p = buf p := by
  rw [pairFill_outside a2 b2 (2 * n) n2 _ p (by omega)]
  rw [pairFill_outside a b 0 n buf p (by omega)]

/-- Every position below `2n + 2n2` holds one of the four stored values, selected by
its phase and parity. -/
theorem fill_cases {β : Type} (a b a2 b2 : Nat → β) (n n2 : Nat) (buf : Buf β)
    (p : Nat) (hp : p < 2 * n + 2 * n2) :
    pairFill a2 b2 (2 * n) n2 (pairFill a b 0 n buf) p =
      if p < 2 * n then (if p % 2 = 0 then a (p / 2) else b (p / 2))
      else (if p % 2 = 0 then a2 (p / 2 - n) else b2 (p / 2 - n)) := by
  by_cases h1 : p < 2 * n
  · rw [if_pos h1]
    by_cases h2 : p % 2 = 0
    · rw [if_pos h2]
      have e : p = 2 * (p / 2) := by omega
      rw [e, fill_first_even a b a2 b2 n n2 buf (p / 2) (by omega)]
      congr 1
      omega
    · rw [if_neg h2]
      have e : p = 2 * (p / 2) + 1 := by omega
      rw [e, fill_first_odd a b a2 b2 n n2 buf (p / 2) (by omega)]
      congr 1
      omega
  · rw [if_neg h1]
    by_cases h2 : p % 2 = 0
    · rw [if_pos h2]
      have e : p = 2 * n + 2 * (p / 2 - n) := by omega
      have h := pairFill_even a2 b2 (2 * n) n2 (pairFill a b 0 n buf) (p / 2 - n) (by omega)
      rw [← e] at h
      exact h
    · rw [if_neg h2]
      have e : p = 2 * n + 2 * (p / 2 - n) + 1 := by omega
      have h := pairFill_odd a2 b2 (2 * n) n2 (pairFill a b 0 n buf) (p / 2 - n) (by omega)
      rw [← e] at h
      exact h

/-- In the structure call the row index at position `p` is `p / 2`. -/
theorem eval_jac_g_row {α : Type} [One α] [Neg α] (P : Plant α) (n : Nat)
    (hlen : P._p_opt.length = 2 * n) (nv : Int) (x : Buf α) (new_x : Bool)
    (m nele_jac : Int) (iRow jCol : Buf Int) (p : Nat) (hp : p < 2 * (2 * n - 1)) :
    (eval_jac_g P nv x new_x m nele_jac iRow jCol none).iRow p = ((p / 2 : Nat) : Int) := by
  have htmp : P._p_opt.length / 2 = n := by omega
  rw [eval_jac_g_structure, htmp]
  simp only []
  rw [fill_cases _ _ _ _ n (n - 1) iRow p (by omega)]
  by_cases h1 : p < 2 * n
  · rw [if_pos h1]
    split <;> rfl
  · rw [if_neg h1]
    have e : n + (p / 2 - n) = p / 2 := by omega
    split <;> rw [e]

theorem eval_jac_g_values_eq {α : Type} [One α] [Neg α] (P : Plant α) (n : Nat)
    (hlen : P._p_opt.length = 2 * n) (nv : Int) (x : Buf α) (new_x : Bool)
    (m nele_jac : Int) (iRow jCol : Buf Int) (values : Buf α) :
    eval_jac_g P nv x new_x m nele_jac iRow jCol (some values)
      = ⟨true, iRow, jCol, some (filledValues n values)⟩ := by
  have htmp : P._p_opt.length / 2 = n := by omega
  rw [eval_jac_g_values, htmp]
  rfl

theorem filledValues_first {α : Type} [One α] [Neg α] (n : Nat) (values : Buf α)
    (k : Nat) (hk : k < n) :
    filledValues n values (2 * k) = -1 ∧ filledValues n values (2 * k + 1) = 1 := by
  unfold filledValues
  exact ⟨fill_first_even _ _ _ _ n (n - 1) values k hk,
    fill_first_odd _ _ _ _ n (n - 1) values k hk⟩

theorem filledValues_second {α : Type} [One α] [Neg α] (n : Nat) (values : Buf α)
    (k : Nat) (hk : k < n - 1) :
    filledValues n values (2 * n + 2 * k) = 1 ∧
    filledValues n values (2 * n + 2 * k + 1) = -1 := by
  unfold filledValues
  exact ⟨pairFill_even _ _ (2 * n) (n - 1) _ k hk, pairFill_odd _ _ (2 * n) (n - 1) _ k hk⟩

theorem eval_jac_g_structure_first {α : Type} [One α] [Neg α] (P : Plant α) (n : Nat)
    (hlen : P._p_opt.length = 2 * n) (nv : Int) (x : Buf α) (new_x : Bool)
    (m nele_jac : Int) (iRow jCol : Buf Int) (k : Nat) (hk : k < n) :
    (eval_jac_g P nv x new_x m nele_jac iRow jCol none).iRow (2 * k) = (k : Int) ∧
    (eval_jac_g P nv x new_x m nele_jac iRow jCol none).jCol (2 * k) = (k : Int) ∧
    (eval_jac_g P nv x new_x m nele_jac iRow jCol none).iRow (2 * k + 1) = (k : Int) ∧
    (eval_jac_g P nv x new_x m nele_jac iRow jCol none).jCol (2 * k + 1)
      = ((n + k : Nat) : Int) := by
  have htmp : P._p_opt.length / 2 = n := by omega
  rw [eval_jac_g_structure, htmp]
  simp only []
  refine ⟨?_, ?_, ?_, ?_⟩
  · rw [fill_first_even _ _ _ _ n (n - 1) iRow k hk]
  · rw [fill_first_even _ _ _ _ n (n - 1) jCol k hk]
  · rw [fill_first_odd _ _ _ _ n (n - 1) iRow k hk]
  · rw [fill_first_odd _ _ _ _ n (n - 1) jCol k hk]

theorem eval_jac_g_structure_second {α : Type} [One α] [Neg α] (P : Plant α) (n : Nat)
    (hlen : P._p_opt.length = 2 * n) (nv : Int) (x : Buf α) (new_x : Bool)
    (m nele_jac : Int) (iRow jCol : Buf Int) (k : Nat) (hk : k < n - 1) :
    (eval_jac_g P nv x new_x m nele_jac iRow jCol none).iRow (2 * n + 2 * k)
      = ((n + k : Nat) : Int) ∧
    (eval_jac_g P nv x new_x m nele_jac iRow jCol none).jCol (2 * n + 2 * k)
      = ((k + 1 : Nat) : Int) ∧
    (eval_jac_g P nv x new_x m nele_jac iRow jCol none).iRow (2 * n + 2 * k + 1)
      = ((n + k : Nat) : Int) ∧
    (eval_jac_g P nv x new_x m nele_jac iRow jCol none).jCol (2 * n + 2 * k + 1)
      = ((n + k : Nat) : Int) := by
  have htmp : P._p_opt.length / 2 = n := by omega
  rw [eval_jac_g_structure, htmp]
  simp only []
  refine ⟨?_, ?_, ?_, ?_⟩
  · rw [pairFill_even _ _ (2 * n) (n - 1) _ k hk]
  · rw [pairFill_even _ _ (2 * n) (n - 1) _ k hk]
  · rw [pairFill_odd _ _ (2 * n) (n - 1) _ k hk]
  · rw [pairFill_odd _ _ (2 * n) (n - 1) _ k hk]

theorem eval_jac_g_structure_beyond {α : Type} [One α] [Neg α] (P : Plant α) (n : Nat)
    (hn : 1 ≤ n) (hlen : P._p_opt.length = 2 * n) (nv : Int) (x : Buf α) (new_x : Bool)
    (m nele_jac : Int) (iRow jCol : Buf Int) (p : Nat) (hp : 2 * (2 * n - 1) ≤ p) :
    (eval_jac_g P nv x new_x m nele_jac iRow jCol none).iRow p = iRow p ∧
    (eval_jac_g P nv x new_x m nele_jac iRow jCol none).jCol p = jCol p := by
  have htmp : P._p_opt.length / 2 = n := by omega
  rw [eval_jac_g_structure, htmp]
  simp only []
  have hp2 : 2 * n + 2 * (n - 1) ≤ p := by omega
  exact ⟨fill_beyond _ _ _ _ n (n - 1) iRow p hp2, fill_beyond _ _ _ _ n (n - 1) jCol p hp2⟩

/-- In a ring the assembled entry is the sum of the matching triplet values. -/
theorem assembleTriplets_eq_sum {α : Type} [Ring α] (nele : Nat) (iRow jCol : Buf Int)
    (values : Buf α) (r c : Nat) :
    assembleTriplets nele iRow jCol values r c
      = ∑ p in Finset.range nele,
          if iRow p = (r : Int) ∧ jCol p = (c : Int) then values p else 0 := by
  unfold assembleTriplets
  induction nele with
  | zero => simp [forLoop]
  | succ n ih =>
    simp only [forLoop]
    rw [ih, Finset.sum_range_succ]
    split <;> simp

/-- In a ring the accumulated product row is the sum of the products. -/
theorem matVec_eq_sum {α : Type} [Ring α] (cols : Nat) (J : Nat → Nat → α) (x : Buf α)
    (r : Nat) : matVec cols J x r = ∑ c in Finset.range cols, J r c * x c := by
  unfold matVec
  induction cols with
  | zero => simp [forLoop]
  | succ n ih =>
    simp only [forLoop]
    rw [ih, Finset.sum_range_succ]

theorem matVec_two_per_row {α : Type} [Ring α] (nele cols : Nat) (R C : Buf Int)
    (v : Buf α) (x : Buf α) (r c1 c2 : Nat)
    (hR : ∀ p, p < nele → R p = ((p / 2 : Nat) : Int)) (hr : 2 * r + 1 < nele)
    (hc1 : C (2 * r) = (c1 : Int)) (hc2 : C (2 * r + 1) = (c2 : Int))
    (h1 : c1 < cols) (h2 : c2 < cols) :
    matVec cols (assembleTriplets nele R C v) x r
      = v (2 * r) * x c1 + v (2 * r + 1) * x c2 := by
  have hJ : ∀ c, assembleTriplets nele R C v r c
      = (if c1 = c then v (2 * r) else 0) + (if c2 = c then v (2 * r + 1) else 0) := by
    intro c
    rw [assembleTriplets_eq_sum]
    rw [Finset.sum_eq_add_of_mem (2 * r) (2 * r + 1) (Finset.mem_range.mpr (by omega))
      (Finset.mem_range.mpr hr) (by omega)]
    · have e1 : R (2 * r) = (r : Int) := by
        rw [hR (2 * r) (by omega)]
        congr 1
        omega
      have e2 : R (2 * r + 1) = (r : Int) := by
        rw [hR (2 * r + 1) hr]
        congr 1
        omega
      simp only [e1, e2, hc1, hc2, true_and, Nat.cast_inj]
    · intro p hp hne
      have hp2 : p < nele := Finset.mem_range.mp hp
      have e : ¬ (R p = (r : Int) ∧ C p = (c : Int)) := by
        rintro ⟨h, -⟩
        rw [hR p hp2] at h
        have : p / 2 = r := by exact_mod_cast h
        omega
      rw [if_neg e]
  rw [matVec_eq_sum]
  simp only [hJ, add_mul, ite_mul, zero_mul, Finset.sum_add_distrib, Finset.sum_ite_eq,
    Finset.mem_range, h1, h2, if_true]

/-- Closed form of the assembled constraint Jacobian applied to a vector. -/
theorem constraintJacobian_matVec {α : Type} [Ring α] (P : Plant α) (n : Nat)
    (hn : 1 ≤ n) (hlen : P._p_opt.length = 2 * n) (x y : Buf α) (iRow jCol : Buf Int)
    (values : Buf α) (r : Nat) (hr : r < 2 * n - 1) :
    matVec (2 * n) (constraintJacobian P x iRow jCol values) y r
      = if r < n then y (n + r) - y r else y (r - n + 1) - y r := by
  have htmp : P._p_opt.length / 2 = n := by omega
  have hnnz : (get_nlp_info P).nnz_jac_g.toNat = 2 * (2 * n - 1) := by
    simp only [get_nlp_info, hlen]
    omega
  have hV := eval_jac_g_values_eq P n hlen (get_nlp_info P).n x false (get_nlp_info P).m
    (get_nlp_info P).nnz_jac_g
    (eval_jac_g P (get_nlp_info P).n x true (get_nlp_info P).m
      (get_nlp_info P).nnz_jac_g iRow jCol none).iRow
    (eval_jac_g P (get_nlp_info P).n x true (get_nlp_info P).m
      (get_nlp_info P).nnz_jac_g iRow jCol none).jCol values
  have hJ : constraintJacobian P x iRow jCol values
      = assembleTriplets (2 * (2 * n - 1))
        (eval_jac_g P (get_nlp_info P).n x true (get_nlp_info P).m
          (get_nlp_info P).nnz_jac_g iRow jCol none).iRow
        (eval_jac_g P (get_nlp_info P).n x true (get_nlp_info P).m
          (get_nlp_info P).nnz_jac_g iRow jCol none).jCol (filledValues n values) := by
    funext r c
    simp only [constraintJacobian, hV, hnnz]
  rw [hJ]
  have hrow := fun p hp => eval_jac_g_row P n hlen (get_nlp_info P).n x true
    (get_nlp_info P).m (get_nlp_info P).nnz_jac_g iRow jCol p hp
  by_cases h1 : r < n
  · rw [if_pos h1]
    obtain ⟨v0, v1⟩ := filledValues_first n values r h1
    obtain ⟨-, c0, -, c1⟩ := eval_jac_g_structure_first P n hlen (get_nlp_info P).n x true
      (get_nlp_info P).m (get_nlp_info P).nnz_jac_g iRow jCol r h1
    rw [matVec_two_per_row (2 * (2 * n - 1)) (2 * n) _ _ (filledValues n values) y r r
      (n + r) hrow (by omega) c0 c1 (by omega) (by omega), v0, v1]
    simp only [neg_mul, one_mul]
    abel
  · rw [if_neg h1]
    have e : 2 * r = 2 * n + 2 * (r - n) := by omega
    obtain ⟨v0, v1⟩ := filledValues_second n values (r - n) (by omega)
    obtain ⟨-, c0, -, c1⟩ := eval_jac_g_structure_second P n hlen (get_nlp_info P).n x true
      (get_nlp_info P).m (get_nlp_info P).nnz_jac_g iRow jCol (r - n) (by omega)
    rw [← e] at v0 v1 c0 c1
    rw [matVec_two_per_row (2 * (2 * n - 1)) (2 * n) _ _ (filledValues n values) y r
      (r - n + 1) (n + (r - n)) hrow (by omega) c0 c1 (by omega) (by omega), v0, v1]
    have e2 : n + (r - n) = r := by omega
    rw [e2]
    simp only [neg_mul, one_mul]
    abel

/-- Closed form of the buffer written by `eval_g`. -/
theorem eval_g_apply {α : Type} [Sub α] (P : Plant α) (n : Nat)
    (hlen : P._p_opt.length = 2 * n) (nv : Int) (x : Buf α) (new_x : Bool) (m : Int)
    (g : Buf α) (j : Nat) :
    (eval_g P nv x new_x m g).2 j
      = if n ≤ j ∧ j < n + (n - 1) then x (j - n + 1) - x (n + (j - n))
        else if j < n then x (n + j) - x j else g j := by
  have htmp : P._p_opt.length / 2 = n := by omega
  simp only [eval_g, htmp]
  rw [forLoop_write_apply n (fun k => x (k + 1) - x (n + k)), forLoop_write_apply_zero]

theorem forLoopM_copy {α : Type} (L : List α) (n : Nat) (hn : n ≤ L.length) (b : Buf α) :
    forLoopM n (fun k b => do let v ← L[k]?; pure (b.write k v)) b
      = some (fun j => if j < n then (L[j]?).getD (b j) else b j) := by
  induction n with
  | zero => simp [forLoopM]
  | succ n ih =>
    have hlt : n < L.length := by omega
    simp only [forLoopM]
    rw [ih (by omega)]
    simp only [Option.bind_eq_bind, Option.some_bind, List.getElem?_eq_getElem hlt,
      Option.pure_def]
    congr 1
    funext j
    simp only [Buf.write]
    by_cases h1 : j = n
    · subst h1
      simp [List.getElem?_eq_getElem hlt]
    · rw [if_neg h1]
      by_cases h2 : j < n
      · have h3 : j < n + 1 := by omega
        rw [if_pos h2, if_pos h3]
      · have h3 : ¬ (j < n + 1) := by omega
        rw [if_neg h2, if_neg h3]

theorem forLoopM_bounds {α : Type} (L : List α) (lo hi : α) (h0 : L[0]? = some lo)
    (h1 : L[1]? = some hi) (off n : Nat) (s : BoundCursor α) :
    forLoopM n (fun k s => do
        let lo ← L[0]?
        let s : BoundCursor α := ⟨s.g_l.write (off + k) lo, s.g_u⟩
        let hi ← L[1]?
        pure ⟨s.g_l, s.g_u.write (off + k) hi⟩) s
      = some ⟨forLoop n (fun k b => b.write (off + k) lo) s.g_l,
              forLoop n (fun k b => b.write (off + k) hi) s.g_u⟩ := by
  induction n with
  | zero => simp [forLoopM, forLoop]
  | succ n ih =>
    simp only [forLoopM]
    rw [ih]
    simp only [h0, h1, Option.bind_eq_bind, Option.some_bind, Option.pure_def, forLoop]

/-- Closed form of `get_bounds_info` when both regime-bound pairs can be read. -/
theorem get_bounds_info_eq {α : Type} (P : Plant α) (nv : Int) (x_l x_u : Buf α) (m : Int)
    (g_l g_u : Buf α) (lo hi lo2 hi2 : α)
    (h0 : P._on_bound[0]? = some lo) (h1 : P._on_bound[1]? = some hi)
    (h2 : P._off_bound[0]? = some lo2) (h3 : P._off_bound[1]? = some hi2) :
    get_bounds_info P nv x_l x_u m g_l g_u = some
      ⟨true,
       fun j => if j < P._lower_bound.length then (P._lower_bound[j]?).getD (x_l j) else x_l j,
       fun j => if j < P._upper_bound.length then (P._upper_bound[j]?).getD (x_u j) else x_u j,
       forLoop (P._p_opt.length / 2 - 1) (fun k b => b.write (P._p_opt.length / 2 + k) lo2)
         (forLoop (P._p_opt.length / 2) (fun k b => b.write (0 + k) lo) g_l),
       forLoop (P._p_opt.length / 2 - 1) (fun k b => b.write (P._p_opt.length / 2 + k) hi2)
         (forLoop (P._p_opt.length / 2) (fun k b => b.write (0 + k) hi) g_u)⟩ := by
  have hb := forLoopM_bounds P._on_bound lo hi h0 h1 0
  have hb2 := forLoopM_bounds P._off_bound lo2 hi2 h2 h3 (P._p_opt.length / 2)
  have hc := fun b => forLoopM_copy P._lower_bound _ (Nat.le_refl _) b
  have hc2 := fun b => forLoopM_copy P._upper_bound _ (Nat.le_refl _) b
  simp only [Nat.zero_add, Option.bind_eq_bind, Option.pure_def] at hb hb2 hc hc2
  simp only [get_bounds_info, Option.bind_eq_bind, Option.pure_def, hc, hc2, hb, hb2,
    Option.some_bind, Nat.zero_add]

theorem forLoopM_copyInto {α : Type} (src : List α) (off : Nat) (dst : List α)
    (h : off + src.length ≤ dst.length) (n : Nat) (hn : n ≤ src.length) :
    forLoopM n (fun k dst => do let a ← src[k]?; coeffSet dst (off + k) a) dst
      = some (dst.take off ++ src.take n ++ dst.drop (off + n)) := by
  induction n with
  | zero => simp [forLoopM]
  | succ n ih =>
    have hlt : n < src.length := by omega
    have hlt2 : off + n < dst.length := by omega
    simp only [forLoopM]
    rw [ih (by omega)]
    have hlen : (dst.take off ++ src.take n).length = off + n := by
      rw [List.length_append, List.length_take, List.length_take]
      omega
    have hlen2 : (dst.take off ++ src.take n ++ dst.drop (off + n)).length = dst.length := by
      rw [List.length_append, hlen, List.length_drop]
      omega
    have key : (dst.take off ++ src.take n ++ dst.drop (off + n)).set (off + n) src[n]
        = dst.take off ++ src.take (n + 1) ++ dst.drop (off + (n + 1)) := by
      rw [List.set_append_right _ _ (by omega), hlen, Nat.sub_self,
        List.drop_eq_getElem_cons hlt2, List.set_cons_zero, List.take_succ,
        List.getElem?_eq_getElem hlt]
      simp only [Option.toList, List.append_assoc, List.singleton_append, List.cons_append,
        List.nil_append, Nat.add_assoc]
    rw [List.getElem?_eq_getElem hlt]
    simp only [Option.bind_eq_bind, Option.some_bind, coeffSet, hlen2, hlt2, if_true]
    rw [key]

theorem copyInto_eq {α : Type} (src : List α) (off : Nat) (dst : List α)
    (h : off + src.length ≤ dst.length) :
    copyInto src off dst = some (dst.take off ++ src ++ dst.drop (off + src.length)) := by
  unfold copyInto
  rw [forLoopM_copyInto src off dst h src.length (Nat.le_refl _), List.take_length]

/-- The constants vector is the concatenation of `_p_dynamic` and `_x0`. -/
theorem fill_p_dynamic_x0_eq {α : Type} [Zero α] (P : Plant α) :
    fill_p_dynamic_x0 P = some (P._p_dynamic ++ P._x0) := by
  unfold fill_p_dynamic_x0
  simp only [Option.bind_eq_bind]
  rw [copyInto_eq _ _ _ (by simp)]
  simp only [Option.some_bind]
  rw [copyInto_eq _ _ _ (by simp)]
  congr 1
  simp

/-- Copying a vector over a zero vector of the same size gives the vector. -/
theorem copyInto_replicate {α : Type} [Zero α] (v : List α) :
    copyInto v 0 (List.replicate v.length (0 : α)) = some v := by
  rw [copyInto_eq _ _ _ (by simp)]
  simp

/-- Closed form of `jacobian`: it always returns, with both flags cleared. -/
theorem jacobian_eq {α : Type} [Zero α] (J : ad_function α → List α → List α)
    (P : Plant α) (p_opt : List α) :
    jacobian J P p_opt = some
      ⟨J (tapeAfter P p_opt) p_opt,
       { P with objective_tape := tapeAfter P p_opt, new_tape := false,
                new_dynamic := false },
       (if P.new_tape then [TapeCall.record p_opt (P._p_dynamic ++ P._x0)] else []) ++
       (if P.new_dynamic then [TapeCall.new_dynamic (P._p_dynamic ++ P._x0)] else []) ++
       [TapeCall.Jacobian p_opt]⟩ := by
  rcases P with ⟨pc, pd, po, pi, lb, ub, onb, offb, t0, tf, dt, x0, tape, nt, nd, si, ss⟩
  cases nt <;> cases nd <;>
    simp [jacobian, tapeAfter, fill_p_dynamic_x0_eq, copyInto_replicate]

theorem forLoopM_congr {σ : Type} (n : Nat) (f g : Nat → σ → Option σ)
    (h : ∀ k, k < n → ∀ s, f k s = g k s) (s : σ) : forLoopM n f s = forLoopM n g s := by
  induction n with
  | zero => rfl
  | succ n ih =>
    simp only [forLoopM]
    rw [ih (fun k hk => h k (by omega))]
    cases forLoopM n g s with
    | none => rfl
    | some t => exact h n (by omega) t

/-- The loop of `eval_grad_f` that loads the solver's buffer into an Eigen vector. -/
theorem forLoopM_load {α : Type} [Zero α] (x : Buf α) (n : Nat) :
    forLoopM (List.replicate n (0 : α)).length (fun k p_opt => coeffSet p_opt k (x k))
      (List.replicate n (0 : α)) = some ((List.range n).map x) := by
  have h := copyInto_eq ((List.range n).map x) 0 (List.replicate n (0 : α)) (by simp)
  simp only [List.take_zero, List.nil_append, List.length_map, List.length_range,
    Nat.zero_add] at h
  rw [List.drop_eq_nil_of_le (by simp), List.append_nil] at h
  rw [← h]
  unfold copyInto
  simp only [List.length_replicate, List.length_map, List.length_range]
  apply forLoopM_congr
  intro k hk s
  simp [List.getElem?_eq_getElem, hk]

theorem forLoopM_copy_none {α : Type} (L : List α) (n : Nat) (hn : ¬ n ≤ L.length)
    (b : Buf α) :
    forLoopM n (fun k b => do let v ← L[k]?; pure (b.write k v)) b = none := by
  induction n with
  | zero => omega
  | succ n ih =>
    simp only [forLoopM]
    by_cases h : n ≤ L.length
    · have hnone : L[n]? = none := List.getElem?_eq_none (by omega)
      cases forLoopM n (fun k b => do let v ← L[k]?; pure (b.write k v)) b with
      | none => rfl
      | some t => simp [hnone]
    · rw [ih h]
      rfl

/-- Closed form of `eval_grad_f`: the request is made at the first `_p_opt.size()`
entries of `x`, and the returned vector is copied into `grad_f`. -/
theorem eval_grad_f_eq {α : Type} [Zero α] (J : ad_function α → List α → List α)
    (P : Plant α) (n : Int) (x : Buf α) (new_x : Bool) (grad_f : Buf α) :
    eval_grad_f J P n x new_x grad_f =
      (forLoopM P._p_opt.length
        (fun k grad_f => do
          let v ← (J (tapeAfter P ((List.range P._p_opt.length).map x))
            ((List.range P._p_opt.length).map x))[k]?
          pure (grad_f.write k v)) grad_f).map
        (fun g => ⟨true, g,
          { P with objective_tape := tapeAfter P ((List.range P._p_opt.length).map x),
                   new_tape := false, new_dynamic := false },
          (if P.new_tape then
            [TapeCall.record ((List.range P._p_opt.length).map x) (P._p_dynamic ++ P._x0)]
           else []) ++
          (if P.new_dynamic then [TapeCall.new_dynamic (P._p_dynamic ++ P._x0)] else []) ++
          [TapeCall.Jacobian ((List.range P._p_opt.length).map x)]⟩) := by
  unfold eval_grad_f
  simp only [Option.bind_eq_bind]
  rw [forLoopM_load x P._p_opt.length]
  simp only [Option.some_bind, jacobian_eq, List.length_map, List.length_range]
  cases forLoopM P._p_opt.length
      (fun k grad_f => do
        let v ← (J (tapeAfter P ((List.range P._p_opt.length).map x))
          ((List.range P._p_opt.length).map x))[k]?
        pure (grad_f.write k v)) grad_f with
  | none => rfl
  | some g => rfl

theorem tapeAfter_of_clear {α : Type} (Q : Plant α) (p_opt : List α)
    (h1 : Q.new_tape = false) (h2 : Q.new_dynamic = false) :
    tapeAfter Q p_opt = Q.objective_tape := by
  simp [tapeAfter, h1, h2]

/-- A gradient request on an adapter with both flags clear only evaluates the tape. -/
theorem jacobian_reuse {α : Type} [Zero α] (J : ad_function α → List α → List α)
    (Q : Plant α) (p_opt : List α) (h1 : Q.new_tape = false) (h2 : Q.new_dynamic = false) :
    jacobian J Q p_opt = some ⟨J Q.objective_tape p_opt, Q, [TapeCall.Jacobian p_opt]⟩ := by
  rw [jacobian_eq, tapeAfter_of_clear Q p_opt h1 h2, h1, h2]
  rcases Q with ⟨pc, pd, po, pi, lb, ub, onb, offb, t0, tf, dt, x0, tape, nt, nd, si, ss⟩
  simp only at h1 h2
  subst h1 h2
  rfl

/-- Pointwise description of what `get_bounds_info` returns when the stored decision
vector has length `2n` and both regime-bound pairs can be read. -/
theorem get_bounds_info_spec {α : Type} (P : Plant α) (n : Nat)
    (hlen : P._p_opt.length = 2 * n) (nv : Int) (x_l x_u : Buf α) (m : Int)
    (g_l g_u : Buf α) (lo hi lo2 hi2 : α)
    (h0 : P._on_bound[0]? = some lo) (h1 : P._on_bound[1]? = some hi)
    (h2 : P._off_bound[0]? = some lo2) (h3 : P._off_bound[1]? = some hi2) :
    ∃ r : BoundsInfo α, get_bounds_info P nv x_l x_u m g_l g_u = some r ∧ r.ret = true ∧
      (∀ j, r.x_l j
        = if j < P._lower_bound.length then (P._lower_bound[j]?).getD (x_l j) else x_l j) ∧
      (∀ j, r.x_u j
        = if j < P._upper_bound.length then (P._upper_bound[j]?).getD (x_u j) else x_u j) ∧
      (∀ j, r.g_l j
        = if n ≤ j ∧ j < n + (n - 1) then lo2 else if 0 ≤ j ∧ j < 0 + n then lo else g_l j) ∧
      (∀ j, r.g_u j
        = if n ≤ j ∧ j < n + (n - 1) then hi2 else if 0 ≤ j ∧ j < 0 + n then hi else g_u j) := by
  have htmp : P._p_opt.length / 2 = n := by omega
  refine ⟨_, get_bounds_info_eq P nv x_l x_u m g_l g_u lo hi lo2 hi2 h0 h1 h2 h3, rfl,
    fun j => rfl, fun j => rfl, ?_, ?_⟩
  · intro j
    simp only [htmp]
    rw [forLoop_write_apply n (fun _ => lo2), forLoop_write_apply 0 (fun _ => lo)]
  · intro j
    simp only [htmp]
    rw [forLoop_write_apply n (fun _ => hi2), forLoop_write_apply 0 (fun _ => hi)]

/-- The store loop `for (k < n) v(k) = x[k]` on an Eigen vector of size `n`. -/
theorem forLoopM_store {α : Type} (x : Buf α) (v : List α) :
    forLoopM v.length (fun k v => coeffSet v k (x k)) v
      = some ((List.range v.length).map x) := by
  have h := copyInto_eq ((List.range v.length).map x) 0 v (by simp)
  simp only [List.take_zero, List.nil_append, List.length_map, List.length_range,
    Nat.zero_add] at h
  rw [List.drop_eq_nil_of_le (Nat.le_refl _), List.append_nil] at h
  rw [← h]
  unfold copyInto
  simp only [List.length_map, List.length_range]
  apply forLoopM_congr
  intro k hk s
  simp [List.getElem?_eq_getElem, hk]

/-- Closed form of `finalize_solution` when `_p_opt_ipopt` has the size of `_p_opt`. -/
theorem finalize_solution_eq {α : Type} (P : Plant α)
    (hlen : P._p_opt_ipopt.length = P._p_opt.length) (status : Int) (n : Int)
    (x z_L z_U : Buf α) (m : Int) (g lambda : Buf α) (obj_value : α) :
    finalize_solution P status n x z_L z_U m g lambda obj_value
      = some { P with _p_opt_ipopt := (List.range P._p_opt.length).map x } := by
  unfold finalize_solution
  rw [← hlen, forLoopM_store x P._p_opt_ipopt]
  rfl

theorem set_p_const_p_opt {α : Type} (P : Plant α) (v : List α) :
    (set_p_const P v)._p_opt = P._p_opt ∧ (set_p_const P v)._p_opt_ipopt = P._p_opt_ipopt := by
  unfold set_p_const
  constructor <;> split <;> rfl

theorem set_p_dynamic_p_opt {α : Type} (P : Plant α) (v : List α) :
    (set_p_dynamic P v)._p_opt = P._p_opt ∧
    (set_p_dynamic P v)._p_opt_ipopt = P._p_opt_ipopt := by
  unfold set_p_dynamic
  constructor <;> split <;> rfl

theorem set_x0_p_opt {α : Type} (P : Plant α) (v : List α) :
    (set_x0 P v)._p_opt = P._p_opt ∧ (set_x0 P v)._p_opt_ipopt = P._p_opt_ipopt := by
  unfold set_x0
  constructor <;> split <;> rfl

/-- No `Mutation` touches the decision variables or the stored result. -/
theorem Mutation.run_p_opt {α : Type} [Zero α] (J : ad_function α → List α → List α)
    (op : Mutation α) (P : Plant α) :
    (op.run J P)._p_opt = P._p_opt ∧ (op.run J P)._p_opt_ipopt = P._p_opt_ipopt := by
  cases op with
  | set_p_const v => exact set_p_const_p_opt P v
  | set_p_dynamic v => exact set_p_dynamic_p_opt P v
  | set_t0 a => exact ⟨rfl, rfl⟩
  | set_tf a => exact ⟨rfl, rfl⟩
  | set_dt a => exact ⟨rfl, rfl⟩
  | set_lower_bound v => exact ⟨rfl, rfl⟩
  | set_upper_bound v => exact ⟨rfl, rfl⟩
  | set_on_bound v => exact ⟨rfl, rfl⟩
  | set_off_bound v => exact ⟨rfl, rfl⟩
  | set_x0 v => exact set_x0_p_opt P v
  | jacobian p_opt =>
    simp only [Mutation.run, jacobian_eq, and_self]

theorem runMutations_p_opt {α : Type} [Zero α] (J : ad_function α → List α → List α)
    (ops : List (Mutation α)) (P : Plant α) :
    (runMutations J ops P)._p_opt = P._p_opt ∧
    (runMutations J ops P)._p_opt_ipopt = P._p_opt_ipopt := by
  induction ops generalizing P with
  | nil => exact ⟨rfl, rfl⟩
  | cons op ops ih =>
    have h1 := Mutation.run_p_opt J op P
    have h2 := ih (op.run J P)
    unfold runMutations at h2 ⊢
    rw [List.foldl_cons]
    exact ⟨h2.1.trans h1.1, h2.2.trans h1.2⟩

/-- Whenever `get_bounds_info` answers, the variable-bound buffers hold the stored bound
vectors on their whole length and are untouched beyond. -/
theorem get_bounds_info_variable_bounds {α : Type} (P : Plant α) (nv : Int)
    (x_l x_u : Buf α) (m : Int) (g_l g_u : Buf α) (r : BoundsInfo α)
    (hr : get_bounds_info P nv x_l x_u m g_l g_u = some r) :
    r.x_l = (fun j =>
      if j < P._lower_bound.length then (P._lower_bound[j]?).getD (x_l j) else x_l j) ∧
    r.x_u = (fun j =>
      if j < P._upper_bound.length then (P._upper_bound[j]?).getD (x_u j) else x_u j) := by
  have hc := fun b => forLoopM_copy P._lower_bound _ (Nat.le_refl _) b
  have hc2 := fun b => forLoopM_copy P._upper_bound _ (Nat.le_refl _) b
  simp only [Option.bind_eq_bind, Option.pure_def] at hc hc2
  simp only [get_bounds_info, Option.bind_eq_bind, Option.pure_def, hc, hc2,
    Option.some_bind, Option.bind_eq_some] at hr
  obtain ⟨s1, -, s2, -, hr⟩ := hr
  cases hr
  exact ⟨rfl, rfl⟩

/-- On an adapter with both flags clear, `set_x0` with a vector of the same length
leaves both flags clear, so the next gradient request only evaluates the tape it
already holds. -/
theorem jacobian_after_set_x0_same_length {α : Type} [Zero α]
    (J : ad_function α → List α → List α) (P : Plant α) (v : List α) (p_opt : List α)
    (h1 : P.new_tape = false) (h2 : P.new_dynamic = false)
    (hlen : v.length = P._x0.length) :
    jacobian J (set_x0 P v) p_opt
      = some ⟨J P.objective_tape p_opt, set_x0 P v, [TapeCall.Jacobian p_opt]⟩ := by
  have e : set_x0 P v = { P with _x0 := v } := by
    simp [set_x0, hlen]
  rw [e]
  exact jacobian_reuse J _ p_opt h1 h2

/-! ## Claims -/

/-- C1: with a stored decision vector of length `2n`, `n ≥ 1`, `eval_g` returns `true`,
stores `g[k] = x[n+k] - x[k]` for `k < n` and `g[n+k] = x[k+1] - x[n+k]` for `k < n-1`,
and leaves every entry of `g` at offset `2n-1` or beyond as it was. -/
theorem eval_g_entries {α : Type} [Sub α] (P : Plant α) (n : Nat) (hn : 1 ≤ n)
    (hlen : P._p_opt.length = 2 * n) (nv : Int) (x : Buf α) (new_x : Bool) (m : Int)
    (g : Buf α) :
    (eval_g P nv x new_x m g).1 = true ∧
    (∀ k, k < n → (eval_g P nv x new_x m g).2 k = x (n + k) - x k) ∧
    (∀ k, k < n - 1 → (eval_g P nv x new_x m g).2 (n + k) = x (k + 1) - x (n + k)) ∧
    (∀ i, 2 * n - 1 ≤ i → (eval_g P nv x new_x m g).2 i = g i) := by
  have htmp : P._p_opt.length / 2 = n := by omega
  refine ⟨rfl, ?_, ?_, ?_⟩
  · intro k hk
    simp only [eval_g, htmp]
    rw [forLoop_write_apply, forLoop_write_apply_zero]
    have h1 : ¬ (n ≤ k ∧ k < n + (n - 1)) := by omega
    rw [if_neg h1, if_pos hk]
  · intro k hk
    simp only [eval_g, htmp]
    rw [forLoop_write_apply]
    have h1 : n ≤ n + k ∧ n + k < n + (n - 1) := by omega
    rw [if_pos h1]
    have h2 : n + k - n = k := by omega
    rw [h2]
  · intro i hi
    simp only [eval_g, htmp]
    rw [forLoop_write_apply, forLoop_write_apply_zero]
    have h1 : ¬ (n ≤ i ∧ i < n + (n - 1)) := by omega
    have h2 : ¬ (i < n) := by omega
    rw [if_neg h1, if_neg h2]

/-- C1 instance: `main`'s plant (`n = 10`) and starting guess. -/
theorem eval_g_entries_witness :
    (eval_g mainPlant 20 main_x true 19 zeroBuf).1 = true ∧
    (∀ k, k < 10 → (eval_g mainPlant 20 main_x true 19 zeroBuf).2 k
      = main_x (10 + k) - main_x k) ∧
    (∀ k, k < 10 - 1 → (eval_g mainPlant 20 main_x true 19 zeroBuf).2 (10 + k)
      = main_x (k + 1) - main_x (10 + k)) ∧
    (∀ i, 2 * 10 - 1 ≤ i → (eval_g mainPlant 20 main_x true 19 zeroBuf).2 i = zeroBuf i) :=
  eval_g_entries mainPlant 10 (by decide) (by decide) 20 main_x true 19 zeroBuf

/-- C2: with a stored decision vector of length `2n`, `n ≥ 1`, the structure call of
`eval_jac_g` (no values buffer) and the values call produce `2(2n-1)` triplets that do
not depend on `x`: positions `2k`, `2k+1` hold `(k, k, -1)` and `(k, n+k, +1)` for
`k < n`; positions `2n+2k`, `2n+2k+1` hold `(n+k, k+1, +1)` and `(n+k, n+k, -1)` for
`k < n-1`; nothing is stored at position `2(2n-1)` or beyond; the structure call has no
values buffer to touch and the values call leaves `iRow`, `jCol` alone; every row
occurs at exactly two positions, with two different columns, and every value is `+1`
or `-1`. -/
theorem eval_jac_g_triplets {α : Type} [One α] [Neg α] (P : Plant α) (n : Nat)
    (hn : 1 ≤ n) (hlen : P._p_opt.length = 2 * n) (nv : Int) (x : Buf α) (new_x : Bool)
    (m nele_jac : Int) (iRow jCol : Buf Int) (values : Buf α) :
    ∃ vals : Buf α,
      eval_jac_g P nv x new_x m nele_jac iRow jCol (some values)
        = ⟨true, iRow, jCol, some vals⟩ ∧
      (eval_jac_g P nv x new_x m nele_jac iRow jCol none).ret = true ∧
      (eval_jac_g P nv x new_x m nele_jac iRow jCol none).values = none ∧
      (∀ (y : Buf α) (new_y : Bool),
        eval_jac_g P nv y new_y m nele_jac iRow jCol none
          = eval_jac_g P nv x new_x m nele_jac iRow jCol none ∧
        eval_jac_g P nv y new_y m nele_jac iRow jCol (some values)
          = eval_jac_g P nv x new_x m nele_jac iRow jCol (some values)) ∧
      (∀ k, k < n →
        (eval_jac_g P nv x new_x m nele_jac iRow jCol none).iRow (2 * k) = (k : Int) ∧
        (eval_jac_g P nv x new_x m nele_jac iRow jCol none).jCol (2 * k) = (k : Int) ∧
        vals (2 * k) = -1 ∧
        (eval_jac_g P nv x new_x m nele_jac iRow jCol none).iRow (2 * k + 1) = (k : Int) ∧
        (eval_jac_g P nv x new_x m nele_jac iRow jCol none).jCol (2 * k + 1)
          = ((n + k : Nat) : Int) ∧
        vals (2 * k + 1) = 1) ∧
      (∀ k, k < n - 1 →
        (eval_jac_g P nv x new_x m nele_jac iRow jCol none).iRow (2 * n + 2 * k)
          = ((n + k : Nat) : Int) ∧
        (eval_jac_g P nv x new_x m nele_jac iRow jCol none).jCol (2 * n + 2 * k)
          = ((k + 1 : Nat) : Int) ∧
        vals (2 * n + 2 * k) = 1 ∧
        (eval_jac_g P nv x new_x m nele_jac iRow jCol none).iRow (2 * n + 2 * k + 1)
          = ((n + k : Nat) : Int) ∧
        (eval_jac_g P nv x new_x m nele_jac iRow jCol none).jCol (2 * n + 2 * k + 1)
          = ((n + k : Nat) : Int) ∧
        vals (2 * n + 2 * k + 1) = -1) ∧
      (∀ p, 2 * (2 * n - 1) ≤ p →
        (eval_jac_g P nv x new_x m nele_jac iRow jCol none).iRow p = iRow p ∧
        (eval_jac_g P nv x new_x m nele_jac iRow jCol none).jCol p = jCol p ∧
        vals p = values p) ∧
      (∀ r : Nat, r < 2 * n - 1 →
        ((Finset.range (2 * (2 * n - 1))).filter (fun p =>
          (eval_jac_g P nv x new_x m nele_jac iRow jCol none).iRow p = (r : Int))).card
          = 2) ∧
      (∀ r : Nat, r < 2 * n - 1 →
        (eval_jac_g P nv x new_x m nele_jac iRow jCol none).jCol (2 * r)
          ≠ (eval_jac_g P nv x new_x m nele_jac iRow jCol none).jCol (2 * r + 1)) ∧
      (∀ p, p < 2 * (2 * n - 1) → vals p = 1 ∨ vals p = -1) := by
  refine ⟨filledValues n values,
    eval_jac_g_values_eq P n hlen nv x new_x m nele_jac iRow jCol values,
    rfl, rfl, ?_, ?_, ?_, ?_, ?_, ?_, ?_⟩
  · intro y new_y
    exact ⟨rfl, rfl⟩
  · intro k hk
    obtain ⟨r0, c0, r1, c1⟩ :=
      eval_jac_g_structure_first P n hlen nv x new_x m nele_jac iRow jCol k hk
    obtain ⟨v0, v1⟩ := filledValues_first n values k hk
    exact ⟨r0, c0, v0, r1, c1, v1⟩
  · intro k hk
    obtain ⟨r0, c0, r1, c1⟩ :=
      eval_jac_g_structure_second P n hlen nv x new_x m nele_jac iRow jCol k hk
    obtain ⟨v0, v1⟩ := filledValues_second n values k hk
    exact ⟨r0, c0, v0, r1, c1, v1⟩
  · intro p hp
    obtain ⟨r0, c0⟩ :=
      eval_jac_g_structure_beyond P n hn hlen nv x new_x m nele_jac iRow jCol p hp
    refine ⟨r0, c0, ?_⟩
    unfold filledValues
    rw [fill_beyond _ _ _ _ n (n - 1) values p (by omega)]
  · intro r hr
    have hset : (Finset.range (2 * (2 * n - 1))).filter (fun p =>
        (eval_jac_g P nv x new_x m nele_jac iRow jCol none).iRow p = (r : Int))
        = {2 * r, 2 * r + 1} := by
      ext p
      simp only [Finset.mem_filter, Finset.mem_range, Finset.mem_insert,
        Finset.mem_singleton]
      constructor
      · rintro ⟨hp, hrow⟩
        rw [eval_jac_g_row P n hlen nv x new_x m nele_jac iRow jCol p hp] at hrow
        have : p / 2 = r := by exact_mod_cast hrow
        omega
      · intro hp
        have hp2 : p < 2 * (2 * n - 1) := by omega
        refine ⟨hp2, ?_⟩
        rw [eval_jac_g_row P n hlen nv x new_x m nele_jac iRow jCol p hp2]
        have : p / 2 = r := by omega
        rw [this]
    rw [hset]
    exact Finset.card_pair (by omega)
  · intro r hr
    by_cases h1 : r < n
    · obtain ⟨-, c0, -, c1⟩ :=
        eval_jac_g_structure_first P n hlen nv x new_x m nele_jac iRow jCol r h1
      rw [c0, c1]
      have : r ≠ n + r := by omega
      exact_mod_cast this
    · obtain ⟨-, c0, -, c1⟩ :=
        eval_jac_g_structure_second P n hlen nv x new_x m nele_jac iRow jCol (r - n)
          (by omega)
      have e : 2 * n + 2 * (r - n) = 2 * r := by omega
      rw [e] at c0 c1
      rw [c0, c1]
      have : r - n + 1 ≠ n + (r - n) := by omega
      exact_mod_cast this
  · intro p hp
    have hp2 : p < 2 * n + 2 * (n - 1) := by omega
    unfold filledValues
    rw [fill_cases _ _ _ _ n (n - 1) values p hp2]
    by_cases h1 : p < 2 * n
    · rw [if_pos h1]
      by_cases h2 : p % 2 = 0
      · rw [if_pos h2]; exact Or.inr rfl
      · rw [if_neg h2]; exact Or.inl rfl
    · rw [if_neg h1]
      by_cases h2 : p % 2 = 0
      · rw [if_pos h2]; exact Or.inl rfl
      · rw [if_neg h2]; exact Or.inr rfl

/-- C2 instance: `main`'s plant, `n = 10`, with zero-initialised buffers. -/
theorem eval_jac_g_triplets_witness :
    ∃ vals : Buf Int,
      eval_jac_g mainPlant 20 main_x true 19 38 zeroIdx zeroIdx (some zeroBuf)
        = ⟨true, zeroIdx, zeroIdx, some vals⟩ ∧
      (eval_jac_g mainPlant 20 main_x true 19 38 zeroIdx zeroIdx none).ret = true ∧
      (eval_jac_g mainPlant 20 main_x true 19 38 zeroIdx zeroIdx none).values = none ∧
      (∀ (y : Buf Int) (new_y : Bool),
        eval_jac_g mainPlant 20 y new_y 19 38 zeroIdx zeroIdx none
          = eval_jac_g mainPlant 20 main_x true 19 38 zeroIdx zeroIdx none ∧
        eval_jac_g mainPlant 20 y new_y 19 38 zeroIdx zeroIdx (some zeroBuf)
          = eval_jac_g mainPlant 20 main_x true 19 38 zeroIdx zeroIdx (some zeroBuf)) ∧
      (∀ k, k < 10 →
        (eval_jac_g mainPlant 20 main_x true 19 38 zeroIdx zeroIdx none).iRow (2 * k) = (k : Int) ∧
        (eval_jac_g mainPlant 20 main_x true 19 38 zeroIdx zeroIdx none).jCol (2 * k) = (k : Int) ∧
        vals (2 * k) = -1 ∧
        (eval_jac_g mainPlant 20 main_x true 19 38 zeroIdx zeroIdx none).iRow (2 * k + 1) = (k : Int) ∧
        (eval_jac_g mainPlant 20 main_x true 19 38 zeroIdx zeroIdx none).jCol (2 * k + 1)
          = ((10 + k : Nat) : Int) ∧
        vals (2 * k + 1) = 1) ∧
      (∀ k, k < 10 - 1 →
        (eval_jac_g mainPlant 20 main_x true 19 38 zeroIdx zeroIdx none).iRow (2 * 10 + 2 * k)
          = ((10 + k : Nat) : Int) ∧
        (eval_jac_g mainPlant 20 main_x true 19 38 zeroIdx zeroIdx none).jCol (2 * 10 + 2 * k)
          = ((k + 1 : Nat) : Int) ∧
        vals (2 * 10 + 2 * k) = 1 ∧
        (eval_jac_g mainPlant 20 main_x true 19 38 zeroIdx zeroIdx none).iRow (2 * 10 + 2 * k + 1)
          = ((10 + k : Nat) : Int) ∧
        (eval_jac_g mainPlant 20 main_x true 19 38 zeroIdx zeroIdx none).jCol (2 * 10 + 2 * k + 1)
          = ((10 + k : Nat) : Int) ∧
        vals (2 * 10 + 2 * k + 1) = -1) ∧
      (∀ p, 2 * (2 * 10 - 1) ≤ p →
        (eval_jac_g mainPlant 20 main_x true 19 38 zeroIdx zeroIdx none).iRow p = zeroIdx p ∧
        (eval_jac_g mainPlant 20 main_x true 19 38 zeroIdx zeroIdx none).jCol p = zeroIdx p ∧
        vals p = zeroBuf p) ∧
      (∀ r : Nat, r < 2 * 10 - 1 →
        ((Finset.range (2 * (2 * 10 - 1))).filter (fun p =>
          (eval_jac_g mainPlant 20 main_x true 19 38 zeroIdx zeroIdx none).iRow p = (r : Int))).card
          = 2) ∧
      (∀ r : Nat, r < 2 * 10 - 1 →
        (eval_jac_g mainPlant 20 main_x true 19 38 zeroIdx zeroIdx none).jCol (2 * r)
          ≠ (eval_jac_g mainPlant 20 main_x true 19 38 zeroIdx zeroIdx none).jCol (2 * r + 1)) ∧
      (∀ p, p < 2 * (2 * 10 - 1) → vals p = 1 ∨ vals p = -1) :=
  eval_jac_g_triplets mainPlant 10 (by decide) (by decide) 20 main_x true 19 38 zeroIdx zeroIdx
    zeroBuf

/-- C3 counterexample: in double arithmetic the constraint values are not the product of
the assembled Jacobian with the point.  For `n = 2` and the point `on = [0, inf]`,
`off = [1, 2]`, row 0 of `eval_g` is `1` while row 0 of `J x` is NaN (`0 * inf`).  For
`n = 1` and the finite points `x = [1, 2^54]`, `y = [0, 2^54]`,
`eval_g(x) - eval_g(y)` is `0` (`2^54 - 1` rounds to `2^54`) while `J (x - y)` is
`-1`. -/
theorem constraintJacobian_mul_fails_for_doubles :
    (eval_g (doublePlant 2) 4 xInf true 3 zeroDbl).2 0 = Dbl.fin 1 ∧
    matVec 4 (constraintJacobian (doublePlant 2) xInf zeroIdx zeroIdx zeroDbl) xInf 0
      = Dbl.nan ∧
    (eval_g (doublePlant 1) 2 xBig true 1 zeroDbl).2 0
      - (eval_g (doublePlant 1) 2 yBig true 1 zeroDbl).2 0 = Dbl.fin 0 ∧
    matVec 2 (constraintJacobian (doublePlant 1) xBig zeroIdx zeroIdx zeroDbl)
      (fun c => xBig c - yBig c) 0 = Dbl.fin (-1) := by
  decide

/-- C3 as amended: in exact arithmetic, that is for scalars that form a ring, with a
stored decision vector of length `2n`, `n ≥ 1`, the matrix `J` assembled from the
triplets of `eval_jac_g` satisfies `eval_g(x) = J x` on the `2n-1` constraint rows; `J`
is the same for every point, so `eval_g(x) - eval_g(y) = J (x - y)`. -/
theorem eval_g_eq_constraintJacobian_mul {α : Type} [Ring α] (P : Plant α) (n : Nat)
    (hn : 1 ≤ n) (hlen : P._p_opt.length = 2 * n) (nv : Int) (new_x : Bool) (m : Int)
    (x y g : Buf α) (iRow jCol : Buf Int) (values : Buf α) :
    (∀ r, r < 2 * n - 1 → (eval_g P nv x new_x m g).2 r
      = matVec (2 * n) (constraintJacobian P x iRow jCol values) x r) ∧
    constraintJacobian P y iRow jCol values = constraintJacobian P x iRow jCol values ∧
    (∀ r, r < 2 * n - 1 →
      (eval_g P nv x new_x m g).2 r - (eval_g P nv y new_x m g).2 r
        = matVec (2 * n) (constraintJacobian P x iRow jCol values) (fun c => x c - y c) r) := by
  have key : ∀ (z : Buf α) (r : Nat), r < 2 * n - 1 → (eval_g P nv z new_x m g).2 r
      = matVec (2 * n) (constraintJacobian P x iRow jCol values) z r := by
    intro z r hr
    rw [constraintJacobian_matVec P n hn hlen x z iRow jCol values r hr,
      eval_g_apply P n hlen]
    by_cases h1 : r < n
    · have h2 : ¬ (n ≤ r ∧ r < n + (n - 1)) := by omega
      rw [if_neg h2, if_pos h1, if_pos h1]
    · have h2 : n ≤ r ∧ r < n + (n - 1) := by omega
      have e : n + (r - n) = r := by omega
      rw [if_pos h2, if_neg h1, e]
  refine ⟨fun r hr => key x r hr, rfl, ?_⟩
  intro r hr
  rw [key x r hr, key y r hr]
  simp only [matVec_eq_sum, mul_sub, Finset.sum_sub_distrib]

/-- C3 instance: `main`'s plant (`n = 10`), its starting guess and the zero point. -/
theorem eval_g_eq_constraintJacobian_mul_witness :
    (∀ r, r < 2 * 10 - 1 → (eval_g mainPlant 20 main_x true 19 zeroBuf).2 r
      = matVec (2 * 10) (constraintJacobian mainPlant main_x zeroIdx zeroIdx zeroBuf)
          main_x r) ∧
    constraintJacobian mainPlant zeroBuf zeroIdx zeroIdx zeroBuf
      = constraintJacobian mainPlant main_x zeroIdx zeroIdx zeroBuf ∧
    (∀ r, r < 2 * 10 - 1 →
      (eval_g mainPlant 20 main_x true 19 zeroBuf).2 r
        - (eval_g mainPlant 20 zeroBuf true 19 zeroBuf).2 r
        = matVec (2 * 10) (constraintJacobian mainPlant main_x zeroIdx zeroIdx zeroBuf)
            (fun c => main_x c - zeroBuf c) r) :=
  eval_g_eq_constraintJacobian_mul mainPlant 10 (by decide) (by decide) 20 true 19
    main_x zeroBuf zeroBuf zeroIdx zeroIdx zeroBuf

/-- C4: with a stored decision vector of length `2n`, `n ≥ 1`, `get_nlp_info` returns
`true` and reports `2n` variables, `2n-1` constraints, `2(2n-1)` Jacobian nonzeros and
`0` Hessian nonzeros (C-style indexing), whatever the other members hold. -/
theorem get_nlp_info_dimensions {α : Type} (P : Plant α) (n : Nat) (hn : 1 ≤ n)
    (hlen : P._p_opt.length = 2 * n) :
    get_nlp_info P = ⟨true, 2 * (n : Int), 2 * (n : Int) - 1, 2 * (2 * (n : Int) - 1), 0,
      IndexStyleEnum.C_STYLE⟩ := by
  simp only [get_nlp_info, hlen]
  push_cast
  rfl

/-- C4 instance: `main`'s plant, `n = 10`. -/
theorem get_nlp_info_dimensions_witness :
    get_nlp_info mainPlant = ⟨true, 2 * ((10 : Nat) : Int), 2 * ((10 : Nat) : Int) - 1,
      2 * (2 * ((10 : Nat) : Int) - 1), 0, IndexStyleEnum.C_STYLE⟩ :=
  get_nlp_info_dimensions mainPlant 10 (by decide) (by decide)

/-- C5: with a stored decision vector of length `2n`, `n ≥ 1`, variable bound vectors of
length `2n` and two-element `on_bound`, `off_bound`, `get_bounds_info` returns `true`
with `x_l = lower_bound`, `x_u = upper_bound` entrywise on `[0, 2n)`, with
`(g_l[k], g_u[k]) = (on_bound[0], on_bound[1])` for `k < n` and
`(g_l[n+k], g_u[n+k]) = (off_bound[0], off_bound[1])` for `k < n-1`; the variable
buffers are untouched from offset `2n` and the constraint buffers from offset `2n-1`. -/
theorem get_bounds_info_entries {α : Type} (P : Plant α) (n : Nat) (hn : 1 ≤ n)
    (hlen : P._p_opt.length = 2 * n) (hl : P._lower_bound.length = 2 * n)
    (hu : P._upper_bound.length = 2 * n) (hon : P._on_bound.length = 2)
    (hoff : P._off_bound.length = 2) (nv : Int) (x_l x_u : Buf α) (m : Int)
    (g_l g_u : Buf α) :
    ∃ r : BoundsInfo α, get_bounds_info P nv x_l x_u m g_l g_u = some r ∧ r.ret = true ∧
      (∀ k, k < 2 * n →
        P._lower_bound[k]? = some (r.x_l k) ∧ P._upper_bound[k]? = some (r.x_u k)) ∧
      (∀ k, k < n →
        P._on_bound[0]? = some (r.g_l k) ∧ P._on_bound[1]? = some (r.g_u k)) ∧
      (∀ k, k < n - 1 →
        P._off_bound[0]? = some (r.g_l (n + k)) ∧ P._off_bound[1]? = some (r.g_u (n + k))) ∧
      (∀ i, 2 * n ≤ i → r.x_l i = x_l i ∧ r.x_u i = x_u i) ∧
      (∀ i, 2 * n - 1 ≤ i → r.g_l i = g_l i ∧ r.g_u i = g_u i) := by
  have h0 : P._on_bound[0]? = some P._on_bound[0] := List.getElem?_eq_getElem (by omega)
  have h1 : P._on_bound[1]? = some P._on_bound[1] := List.getElem?_eq_getElem (by omega)
  have h2 : P._off_bound[0]? = some P._off_bound[0] := List.getElem?_eq_getElem (by omega)
  have h3 : P._off_bound[1]? = some P._off_bound[1] := List.getElem?_eq_getElem (by omega)
  obtain ⟨r, hr, hret, hxl, hxu, hgl, hgu⟩ :=
    get_bounds_info_spec P n hlen nv x_l x_u m g_l g_u _ _ _ _ h0 h1 h2 h3
  refine ⟨r, hr, hret, ?_, ?_, ?_, ?_, ?_⟩
  · intro k hk
    have hk1 : k < P._lower_bound.length := by omega
    have hk2 : k < P._upper_bound.length := by omega
    rw [hxl, hxu, if_pos hk1, if_pos hk2, List.getElem?_eq_getElem hk1,
      List.getElem?_eq_getElem hk2]
    exact ⟨rfl, rfl⟩
  · intro k hk
    have e1 : ¬ (n ≤ k ∧ k < n + (n - 1)) := by omega
    have e2 : 0 ≤ k ∧ k < 0 + n := by omega
    rw [hgl, hgu, if_neg e1, if_neg e1, if_pos e2, if_pos e2]
    exact ⟨h0, h1⟩
  · intro k hk
    have e1 : n ≤ n + k ∧ n + k < n + (n - 1) := by omega
    rw [hgl, hgu, if_pos e1, if_pos e1]
    exact ⟨h2, h3⟩
  · intro i hi
    have hk1 : ¬ (i < P._lower_bound.length) := by omega
    have hk2 : ¬ (i < P._upper_bound.length) := by omega
    rw [hxl, hxu, if_neg hk1, if_neg hk2]
    exact ⟨rfl, rfl⟩
  · intro i hi
    have e1 : ¬ (n ≤ i ∧ i < n + (n - 1)) := by omega
    have e2 : ¬ (0 ≤ i ∧ i < 0 + n) := by omega
    rw [hgl, hgu, if_neg e1, if_neg e1, if_neg e2, if_neg e2]
    exact ⟨rfl, rfl⟩

/-- C5 instance: `main`'s plant, `n = 10`. -/
theorem get_bounds_info_entries_witness :
    ∃ r : BoundsInfo Int,
      get_bounds_info mainPlant 20 zeroBuf zeroBuf 19 zeroBuf zeroBuf = some r ∧
      r.ret = true ∧
      (∀ k, k < 2 * 10 → mainPlant._lower_bound[k]? = some (r.x_l k) ∧
        mainPlant._upper_bound[k]? = some (r.x_u k)) ∧
      (∀ k, k < 10 → mainPlant._on_bound[0]? = some (r.g_l k) ∧
        mainPlant._on_bound[1]? = some (r.g_u k)) ∧
      (∀ k, k < 10 - 1 → mainPlant._off_bound[0]? = some (r.g_l (10 + k)) ∧
        mainPlant._off_bound[1]? = some (r.g_u (10 + k))) ∧
      (∀ i, 2 * 10 ≤ i → r.x_l i = zeroBuf i ∧ r.x_u i = zeroBuf i) ∧
      (∀ i, 2 * 10 - 1 ≤ i → r.g_l i = zeroBuf i ∧ r.g_u i = zeroBuf i) :=
  get_bounds_info_entries mainPlant 10 (by decide) (by decide) (by decide) (by decide)
    (by decide) (by decide) 20 zeroBuf zeroBuf 19 zeroBuf zeroBuf

/-- C6: with a stored decision vector of length `2n`, `n ≥ 1`, and regime bounds whose
lower entries `on_bound[0]`, `off_bound[0]` are strictly positive, every point `x` whose
constraint values `eval_g(x)` lie within the constraint bounds returned by
`get_bounds_info` satisfies `x[k] < x[n+k]` for `k < n` and `x[n+k] < x[k+1]` for
`k < n-1`: the switch times `on[0] < off[0] < on[1] < ... < off[n-1]` increase
strictly. -/
theorem feasible_switch_times_increase {α : Type} [OrderedAddCommGroup α] (P : Plant α)
    (n : Nat) (hn : 1 ≤ n) (hlen : P._p_opt.length = 2 * n) (lo hi lo2 hi2 : α)
    (h0 : P._on_bound[0]? = some lo) (h1 : P._on_bound[1]? = some hi)
    (h2 : P._off_bound[0]? = some lo2) (h3 : P._off_bound[1]? = some hi2)
    (hlo : 0 < lo) (hlo2 : 0 < lo2) (nv : Int) (new_x : Bool) (m : Int)
    (x g x_l x_u g_l g_u : Buf α) (r : BoundsInfo α)
    (hr : get_bounds_info P nv x_l x_u m g_l g_u = some r)
    (hfeas : ∀ i, i < 2 * n - 1 →
      r.g_l i ≤ (eval_g P nv x new_x m g).2 i ∧ (eval_g P nv x new_x m g).2 i ≤ r.g_u i) :
    (∀ k, k < n → x k < x (n + k)) ∧ (∀ k, k < n - 1 → x (n + k) < x (k + 1)) := by
  obtain ⟨r2, hr2, -, -, -, hgl, -⟩ :=
    get_bounds_info_spec P n hlen nv x_l x_u m g_l g_u lo hi lo2 hi2 h0 h1 h2 h3
  have hrr : r = r2 := Option.some.inj (hr.symm.trans hr2)
  subst hrr
  constructor
  · intro k hk
    have hf := (hfeas k (by omega)).1
    have e1 : ¬ (n ≤ k ∧ k < n + (n - 1)) := by omega
    have e2 : 0 ≤ k ∧ k < 0 + n := by omega
    rw [hgl, if_neg e1, if_pos e2, eval_g_apply P n hlen, if_neg e1, if_pos hk] at hf
    exact sub_pos.mp (lt_of_lt_of_le hlo hf)
  · intro k hk
    have hf := (hfeas (n + k) (by omega)).1
    have e1 : n ≤ n + k ∧ n + k < n + (n - 1) := by omega
    have e3 : n + k - n = k := by omega
    rw [hgl, if_pos e1, eval_g_apply P n hlen, if_pos e1, e3] at hf
    exact sub_pos.mp (lt_of_lt_of_le hlo2 hf)

/-- C6 instance: the starting guess of `main` (`n = 10`, `on_bound = [6, 60]`,
`off_bound = [20, 120]`) is within the constraint bounds, hence strictly increasing. -/
theorem feasible_switch_times_increase_witness :
    (∀ k, k < 10 → main_x k < main_x (10 + k)) ∧
    (∀ k, k < 10 - 1 → main_x (10 + k) < main_x (k + 1)) :=
  feasible_switch_times_increase mainPlant 10 (by decide) (by decide) 6 60 20 120
    (by decide) (by decide) (by decide) (by decide) (by decide) (by decide) 20 true 19
    main_x zeroBuf zeroBuf zeroBuf zeroBuf zeroBuf mainBounds rfl (by decide)

/-- C7 counterexample: in the state `main` reaches before `solve` both flags are set, and
the gradient request at the starting guess rebuilds the tape and then also performs the
in-place constants refresh, so two of the three actions are taken on one request. -/
theorem jacobian_rebuild_then_refresh :
    mainPlant.new_tape = true ∧ mainPlant.new_dynamic = true ∧
    (jacobian sampleJacobian mainPlant main_p_opt).map (fun r => r.calls)
      = some [TapeCall.record main_p_opt (main_p_dynamic ++ []),
              TapeCall.new_dynamic (main_p_dynamic ++ []),
              TapeCall.Jacobian main_p_opt] := by
  have h1 : mainPlant.new_tape = true := rfl
  have h2 : mainPlant.new_dynamic = true := rfl
  have h3 : mainPlant._p_dynamic = main_p_dynamic := rfl
  have h4 : mainPlant._x0 = [] := rfl
  refine ⟨h1, h2, ?_⟩
  rw [jacobian_eq, Option.map_some', h1, h2, h3, h4]
  rfl

/-- C7 as amended: a gradient request always returns; it tests the two flags one after
the other.  If `new_tape` is set, a tape is recorded with the requested vector as
independent variables and `_p_dynamic ++ _x0` as constants; then, if `new_dynamic` is
set (also right after a recording), `_p_dynamic ++ _x0` is pushed into the tape in
place; with neither flag set the tape is left as it is.  Both flags are clear
afterwards, no other member changes, and the returned vector is the engine's Jacobian of
the resulting tape at the requested vector. -/
theorem jacobian_actions {α : Type} [Zero α] (J : ad_function α → List α → List α)
    (P : Plant α) (p_opt : List α) :
    ∃ r : GradientResult α, jacobian J P p_opt = some r ∧
      r.calls =
        (if P.new_tape then [TapeCall.record p_opt (P._p_dynamic ++ P._x0)] else []) ++
        (if P.new_dynamic then [TapeCall.new_dynamic (P._p_dynamic ++ P._x0)] else []) ++
        [TapeCall.Jacobian p_opt] ∧
      r.plant.objective_tape =
        (if P.new_dynamic then
          { (if P.new_tape then
              (⟨p_opt, P._p_dynamic ++ P._x0, P._p_const, P._x0.length, P._t0, P._tf,
                P._dt⟩ : ad_function α)
             else P.objective_tape) with dynamic := P._p_dynamic ++ P._x0 }
         else
          (if P.new_tape then
            (⟨p_opt, P._p_dynamic ++ P._x0, P._p_const, P._x0.length, P._t0, P._tf,
              P._dt⟩ : ad_function α)
           else P.objective_tape)) ∧
      r.plant = { P with objective_tape := r.plant.objective_tape, new_tape := false,
                         new_dynamic := false } ∧
      r.value = J r.plant.objective_tape p_opt :=
  ⟨_, jacobian_eq J P p_opt, rfl, rfl, rfl, rfl⟩

/-- C8: each of `set_p_const`, `set_p_dynamic`, `set_p_optimize`, `set_x0` leaves
`new_tape` equal to its old value OR-ed with "the argument's length differs from the
length of the member it replaces"; the other setters leave the flag as it is; and after
a setter call with an argument of a different length the next gradient request records
a fresh tape. -/
theorem setters_new_tape {α : Type} [Zero α] (J : ad_function α → List α → List α)
    (P : Plant α) (v : List α) (a : α) (p_opt : List α) :
    ((set_p_const P v).new_tape = (P.new_tape || decide (v.length ≠ P._p_const.length)) ∧
     (set_p_dynamic P v).new_tape = (P.new_tape || decide (v.length ≠ P._p_dynamic.length)) ∧
     (set_p_optimize P v).new_tape = (P.new_tape || decide (v.length ≠ P._p_opt.length)) ∧
     (set_x0 P v).new_tape = (P.new_tape || decide (v.length ≠ P._x0.length))) ∧
    ((set_t0 P a).new_tape = P.new_tape ∧ (set_tf P a).new_tape = P.new_tape ∧
     (set_dt P a).new_tape = P.new_tape ∧ (set_lower_bound P v).new_tape = P.new_tape ∧
     (set_upper_bound P v).new_tape = P.new_tape ∧
     (set_on_bound P v).new_tape = P.new_tape ∧
     (set_off_bound P v).new_tape = P.new_tape) ∧
    ((v.length ≠ P._p_const.length → ∃ r, jacobian J (set_p_const P v) p_opt = some r ∧
        r.calls.head? = some (TapeCall.record p_opt (P._p_dynamic ++ P._x0))) ∧
     (v.length ≠ P._p_dynamic.length → ∃ r, jacobian J (set_p_dynamic P v) p_opt = some r ∧
        r.calls.head? = some (TapeCall.record p_opt (v ++ P._x0))) ∧
     (v.length ≠ P._p_opt.length → ∃ r, jacobian J (set_p_optimize P v) p_opt = some r ∧
        r.calls.head? = some (TapeCall.record p_opt (P._p_dynamic ++ P._x0))) ∧
     (v.length ≠ P._x0.length → ∃ r, jacobian J (set_x0 P v) p_opt = some r ∧
        r.calls.head? = some (TapeCall.record p_opt (P._p_dynamic ++ v)))) := by
  refine ⟨⟨?_, ?_, ?_, ?_⟩, ⟨rfl, rfl, rfl, rfl, rfl, rfl, rfl⟩, ⟨?_, ?_, ?_, ?_⟩⟩
  · unfold set_p_const
    by_cases h : v.length ≠ P._p_const.length <;> simp [h]
  · unfold set_p_dynamic
    by_cases h : v.length ≠ P._p_dynamic.length <;> simp [h]
  · unfold set_p_optimize
    by_cases h : v.length ≠ P._p_opt.length <;> simp [h]
  · unfold set_x0
    by_cases h : v.length ≠ P._x0.length <;> simp [h]
  · intro h
    refine ⟨_, jacobian_eq J _ p_opt, ?_⟩
    simp [set_p_const, h]
  · intro h
    refine ⟨_, jacobian_eq J _ p_opt, ?_⟩
    simp [set_p_dynamic, h]
  · intro h
    refine ⟨_, jacobian_eq J _ p_opt, ?_⟩
    simp [set_p_optimize, h]
  · intro h
    refine ⟨_, jacobian_eq J _ p_opt, ?_⟩
    simp [set_x0, h]

/-- C8 instance: on an adapter whose tape is valid, `set_x0` with a vector of another
length sets `new_tape`, and the next gradient request starts by recording a tape. -/
theorem setters_new_tape_witness :
    tapedPlant.new_tape = false ∧ (set_x0 tapedPlant [5]).new_tape = true ∧
    ∃ r, jacobian sampleJacobian (set_x0 tapedPlant [5]) [0, 7] = some r ∧
      r.calls.head? = some (TapeCall.record [0, 7] (tapedPlant._p_dynamic ++ [5])) :=
  ⟨by decide, by decide,
    (setters_new_tape sampleJacobian tapedPlant [5] 0 [0, 7]).2.2.2.2.2 (by decide)⟩

/-- C9: `set_p_dynamic` always sets `new_dynamic`.  On an adapter whose `new_tape` is
clear, `set_p_dynamic(v)` with `v` as long as the current `_p_dynamic`, followed by a
gradient request, makes exactly two engine calls: one in-place refresh and the Jacobian
evaluation, no recording.  The vector pushed has length `|v| + |_x0|`, its first `|v|`
entries are `v` and the remaining `|_x0|` entries are `_x0`. -/
theorem set_p_dynamic_refresh {α : Type} [Zero α] (J : ad_function α → List α → List α)
    (P : Plant α) (v : List α) (p_opt : List α) :
    (set_p_dynamic P v).new_dynamic = true ∧
    (P.new_tape = false → v.length = P._p_dynamic.length →
      ∃ (r : GradientResult α) (c : List α),
        jacobian J (set_p_dynamic P v) p_opt = some r ∧
        r.calls = [TapeCall.new_dynamic c, TapeCall.Jacobian p_opt] ∧
        c.length = v.length + P._x0.length ∧ c.take v.length = v ∧
        c.drop v.length = P._x0 ∧
        r.plant.objective_tape = { P.objective_tape with dynamic := c } ∧
        r.value = J { P.objective_tape with dynamic := c } p_opt ∧
        r.plant.new_tape = false ∧ r.plant.new_dynamic = false) := by
  refine ⟨rfl, ?_⟩
  intro h1 h2
  have e1 : (set_p_dynamic P v).new_tape = false := by
    simp [set_p_dynamic, h1, h2]
  have e2 : (set_p_dynamic P v).new_dynamic = true := rfl
  have e3 : (set_p_dynamic P v)._p_dynamic = v := rfl
  have e4 : (set_p_dynamic P v)._x0 = P._x0 := by
    unfold set_p_dynamic
    split <;> rfl
  have e5 : (set_p_dynamic P v).objective_tape = P.objective_tape := by
    unfold set_p_dynamic
    split <;> rfl
  have e6 : tapeAfter (set_p_dynamic P v) p_opt
      = { P.objective_tape with dynamic := v ++ P._x0 } := by
    simp only [tapeAfter, e1, e2, e3, e4, e5, if_true]
    rfl
  refine ⟨_, v ++ P._x0, jacobian_eq J _ p_opt, ?_, ?_, ?_, ?_, ?_, ?_, rfl, rfl⟩
  · simp only [e1, e2, e3, e4, if_true]
    rfl
  · simp
  · simp
  · simp
  · simp only [e6]
  · simp only [e6]

/-- C9 instance: new values of the same length for the dynamic parameters of the small
adapter with a valid tape. -/
theorem set_p_dynamic_refresh_witness :
    tapedPlant.new_tape = false ∧ [20, 0, 60].length = tapedPlant._p_dynamic.length ∧
    ∃ (r : GradientResult Int) (c : List Int),
      jacobian sampleJacobian (set_p_dynamic tapedPlant [20, 0, 60]) [0, 7] = some r ∧
      r.calls = [TapeCall.new_dynamic c, TapeCall.Jacobian [0, 7]] ∧
      c.length = [20, 0, 60].length + tapedPlant._x0.length ∧
      c.take [20, 0, 60].length = [20, 0, 60] ∧
      c.drop [20, 0, 60].length = tapedPlant._x0 ∧
      r.plant.objective_tape = { tapedPlant.objective_tape with dynamic := c } ∧
      r.value = sampleJacobian { tapedPlant.objective_tape with dynamic := c } [0, 7] ∧
      r.plant.new_tape = false ∧ r.plant.new_dynamic = false :=
  ⟨by decide, by decide,
    (set_p_dynamic_refresh sampleJacobian tapedPlant [20, 0, 60] [0, 7]).2
      (by decide) (by decide)⟩

/-- C10: a gradient request always returns and leaves both flags clear; a second
request at the same vector right after it returns the same vector, makes the single
engine call `Jacobian`, and leaves the adapter, tape and flags included, exactly as the
first request left it.  The same holds for `eval_grad_f`: when a first call returns, a
second call with the same `x` returns too, with the same gradient entries, the single
engine call `Jacobian`, and the adapter unchanged. -/
theorem gradient_request_idempotent {α : Type} [Zero α]
    (J : ad_function α → List α → List α) (P : Plant α) (p_opt : List α) (n : Int)
    (x : Buf α) (new_x new_x2 : Bool) (grad_f grad_f2 : Buf α) :
    (∃ r1 r2 : GradientResult α, jacobian J P p_opt = some r1 ∧
      jacobian J r1.plant p_opt = some r2 ∧ r2.value = r1.value ∧
      r2.calls = [TapeCall.Jacobian p_opt] ∧ r2.plant = r1.plant ∧
      r1.plant.new_tape = false ∧ r1.plant.new_dynamic = false) ∧
    (∀ q1 : GradFResult α, eval_grad_f J P n x new_x grad_f = some q1 →
      ∃ q2 : GradFResult α, eval_grad_f J q1.plant n x new_x2 grad_f2 = some q2 ∧
        q2.ret = true ∧ (∀ k, k < P._p_opt.length → q2.grad_f k = q1.grad_f k) ∧
        q2.calls = [TapeCall.Jacobian ((List.range P._p_opt.length).map x)] ∧
        q2.plant = q1.plant ∧ q1.plant.new_tape = false ∧
        q1.plant.new_dynamic = false) := by
  constructor
  · exact ⟨_, _, jacobian_eq J P p_opt, jacobian_reuse J _ p_opt rfl rfl, rfl, rfl, rfl,
      rfl, rfl⟩
  · intro q1 hq1
    rw [eval_grad_f_eq] at hq1
    by_cases hle : P._p_opt.length ≤
        (J (tapeAfter P ((List.range P._p_opt.length).map x))
          ((List.range P._p_opt.length).map x)).length
    · rw [forLoopM_copy _ _ hle] at hq1
      simp only [Option.map_some', Option.some.injEq] at hq1
      subst hq1
      have hq2 : eval_grad_f J
          { P with objective_tape := tapeAfter P ((List.range P._p_opt.length).map x),
                   new_tape := false, new_dynamic := false } n x new_x2 grad_f2
          = some ⟨true,
              fun j => if j < P._p_opt.length then
                ((J (tapeAfter P ((List.range P._p_opt.length).map x))
                  ((List.range P._p_opt.length).map x))[j]?).getD (grad_f2 j)
                else grad_f2 j,
              { P with objective_tape := tapeAfter P ((List.range P._p_opt.length).map x),
                       new_tape := false, new_dynamic := false },
              [TapeCall.Jacobian ((List.range P._p_opt.length).map x)]⟩ := by
        rw [eval_grad_f_eq]
        simp only [tapeAfter_of_clear, List.nil_append, Bool.false_eq_true, if_false]
        rw [forLoopM_copy _ _ hle]
        rfl
      refine ⟨_, hq2, rfl, ?_, rfl, rfl, rfl, rfl⟩
      intro k hk
      simp only [if_pos hk]
      rw [List.getElem?_eq_getElem (by omega)]
      rfl
    · rw [forLoopM_copy_none _ _ hle] at hq1
      simp at hq1

/-- C10 instance: two consecutive `eval_grad_f` calls on the small adapter. -/
theorem gradient_request_idempotent_witness :
    eval_grad_f sampleJacobian untapedPlant 2 smallX true (fun _ => 0) = some firstGradF ∧
    ∃ q2 : GradFResult Int,
      eval_grad_f sampleJacobian firstGradF.plant 2 smallX false (fun _ => 1) = some q2 ∧
      q2.ret = true ∧
      (∀ k, k < untapedPlant._p_opt.length → q2.grad_f k = firstGradF.grad_f k) ∧
      q2.calls = [TapeCall.Jacobian ((List.range untapedPlant._p_opt.length).map smallX)] ∧
      q2.plant = firstGradF.plant ∧ firstGradF.plant.new_tape = false ∧
      firstGradF.plant.new_dynamic = false :=
  ⟨rfl, (gradient_request_idempotent sampleJacobian untapedPlant [0, 7] 2 smallX true false
    (fun _ => 0) (fun _ => 1)).2 firstGradF rfl⟩

/-- C11 at the failing input: on the small adapter with a valid tape (`_x0 = [1, 0]`,
tape constants `[10, 0, 60, 1, 0]`), `set_x0([2, 3])` followed by a gradient request
makes the single engine call `Jacobian`: nothing is pushed into the tape, whose
constants stay `[10, 0, 60, 1, 0]` while `_p_dynamic ++ _x0` is `[10, 0, 60, 2, 3]`, and
the returned vector is the one the tape gave before the call of `set_x0`. -/
theorem set_x0_same_length_tape_stale :
    tapedPlant.new_tape = false ∧ tapedPlant.new_dynamic = false ∧
    tapedPlant._x0 = [1, 0] ∧ tapedPlant.objective_tape.dynamic = [10, 0, 60, 1, 0] ∧
    (jacobian sampleJacobian (set_x0 tapedPlant [2, 3]) [0, 7]).map
        (fun r => (r.calls, r.plant.objective_tape.dynamic,
          r.plant._p_dynamic ++ r.plant._x0))
      = some ([TapeCall.Jacobian [0, 7]], [10, 0, 60, 1, 0], [10, 0, 60, 2, 3]) ∧
    (jacobian sampleJacobian (set_x0 tapedPlant [2, 3]) [0, 7]).map (fun r => r.value)
      = (jacobian sampleJacobian tapedPlant [0, 7]).map (fun r => r.value) := by
  decide

/-- C12 counterexample: a configuration with three decision variables, one lower bound,
two upper bounds, a three-entry `on_bound` and a one-entry `off_bound` is stored by the
setters as given; `solve` hands it to the solver; `get_nlp_info` reports 3 variables and
2 constraints, and `get_bounds_info`, `eval_g` and `eval_jac_g` answer `true`.  Every
store of these calls lies inside the solver's arrays (3 variables, 2 constraints, 4
Jacobian entries): `get_bounds_info` leaves `x_l`, `x_u` untouched from offset 2 and
`g_l`, `g_u` from offset 1, so bounds the solver asked for are never filled in. -/
theorem mismatched_sizes_accepted :
    mismatchedPlant._p_opt.length = 3 ∧ mismatchedPlant._lower_bound.length = 1 ∧
    mismatchedPlant._upper_bound.length = 2 ∧ mismatchedPlant._on_bound.length = 3 ∧
    mismatchedPlant._off_bound.length = 1 ∧
    get_solve_status (solve 0 probeSolver mismatchedPlant) = 3 ∧
    get_nlp_info mismatchedPlant = ⟨true, 3, 2, 4, 0, IndexStyleEnum.C_STYLE⟩ ∧
    (∃ r : BoundsInfo Int,
      get_bounds_info mismatchedPlant 3 zeroBuf zeroBuf 2 zeroBuf zeroBuf = some r ∧
      r.ret = true ∧
      (∀ i, 2 ≤ i → r.x_l i = zeroBuf i ∧ r.x_u i = zeroBuf i) ∧
      (∀ i, 1 ≤ i → r.g_l i = zeroBuf i ∧ r.g_u i = zeroBuf i)) ∧
    (eval_g mismatchedPlant 3 main_x true 2 zeroBuf).1 = true ∧
    (∀ i, 1 ≤ i → (eval_g mismatchedPlant 3 main_x true 2 zeroBuf).2 i = zeroBuf i) ∧
    (eval_jac_g mismatchedPlant 3 main_x true 2 4 zeroIdx zeroIdx none).ret = true ∧
    (eval_jac_g mismatchedPlant 3 main_x true 2 4 zeroIdx zeroIdx (some zeroBuf)).ret
      = true := by
  refine ⟨by decide, by decide, by decide, by decide, by decide, by decide, by decide,
    ⟨_, rfl, rfl, ?_, ?_⟩, rfl, ?_, rfl, rfl⟩
  · intro i hi
    have h0 : ¬ (i = 0) := by omega
    have h1 : ¬ (i = 1) := by omega
    simp [Buf.write, h0, h1]
  · intro i hi
    have h0 : ¬ (i = 0) := by omega
    simp [Buf.write, h0]
  · intro i hi
    have h0 : ¬ (i = 0) := by omega
    simp [eval_g, forLoop, Buf.write, h0, mismatchedPlant, set_off_bound, set_on_bound,
      set_upper_bound, set_lower_bound, set_p_optimize, Plant.fresh]

/-- C12 as amended: no size is checked at setup.  Each of the eleven setters is a plain
store: it puts its argument, whatever its length, into the member it sets and changes
nothing else except the flags (`new_tape` on a size change for `set_p_const`,
`set_p_dynamic`, `set_p_optimize`, `set_x0`; `new_dynamic` for `set_p_dynamic`) and the
zeroed result vector of `set_p_optimize`.  `solve` passes the adapter to the solver as
it is configured, and `get_nlp_info` answers `true` for every configuration with
dimensions computed from the length of the decision vector alone. -/
theorem sizes_not_validated {α : Type} [Zero α] (P : Plant α) (v : List α) (a : α)
    (Initialize : Int) (OptimizeTNLP : Plant α → Int × Plant α) :
    (set_p_const P v =
        { P with _p_const := v
                 new_tape := P.new_tape || decide (v.length ≠ P._p_const.length) } ∧
     set_p_dynamic P v =
        { P with _p_dynamic := v
                 new_dynamic := true
                 new_tape := P.new_tape || decide (v.length ≠ P._p_dynamic.length) } ∧
     set_p_optimize P v =
        { P with _p_opt := v
                 _p_opt_ipopt := List.replicate v.length 0
                 new_tape := P.new_tape || decide (v.length ≠ P._p_opt.length) } ∧
     set_x0 P v =
        { P with _x0 := v
                 new_tape := P.new_tape || decide (v.length ≠ P._x0.length) }) ∧
    (set_t0 P a = { P with _t0 := a } ∧ set_tf P a = { P with _tf := a } ∧
     set_dt P a = { P with _dt := a } ∧
     set_lower_bound P v = { P with _lower_bound := v } ∧
     set_upper_bound P v = { P with _upper_bound := v } ∧
     set_on_bound P v = { P with _on_bound := v } ∧
     set_off_bound P v = { P with _off_bound := v }) ∧
    solve Initialize OptimizeTNLP P
      = { (OptimizeTNLP { P with _status_init := Initialize }).2 with
          _status_solve := (OptimizeTNLP { P with _status_init := Initialize }).1 } ∧
    get_nlp_info P = ⟨true, (P._p_opt.length : Int), (P._p_opt.length : Int) - 1,
      2 * ((P._p_opt.length : Int) - 1), 0, IndexStyleEnum.C_STYLE⟩ := by
  refine ⟨⟨?_, ?_, ?_, ?_⟩, ⟨rfl, rfl, rfl, rfl, rfl, rfl, rfl⟩, rfl, rfl⟩
  · unfold set_p_const
    by_cases h : v.length ≠ P._p_const.length <;> simp [h]
  · unfold set_p_dynamic
    by_cases h : v.length ≠ P._p_dynamic.length <;> simp [h]
  · unfold set_p_optimize
    by_cases h : v.length ≠ P._p_opt.length <;> simp [h]
  · unfold set_x0
    by_cases h : v.length ≠ P._x0.length <;> simp [h]

/-- C13: in every adapter state reached from `set_p_optimize(p)`, `|p| = 2n`, by other
setter calls and gradient requests, `finalize_solution` returns; afterwards
`get_p_optimize_ipopt()` has length `2n` and holds `x[k]` at every `k < 2n`,
`get_p_optimize()` is still `p`, and every member other than `_p_opt_ipopt` (flags,
tape, parameters, bounds, horizon, initial state, statuses) is as before. -/
theorem finalize_solution_stores {α : Type} [Zero α] (J : ad_function α → List α → List α)
    (Q : Plant α) (p : List α) (n : Nat) (hp : p.length = 2 * n)
    (ops : List (Mutation α)) (status nv : Int) (x z_L z_U : Buf α) (m : Int)
    (g lambda : Buf α) (obj_value : α) :
    ∃ P2 : Plant α,
      finalize_solution (runMutations J ops (set_p_optimize Q p)) status nv x z_L z_U m g
        lambda obj_value = some P2 ∧
      (get_p_optimize_ipopt P2).length = 2 * n ∧
      (∀ k, k < 2 * n → (get_p_optimize_ipopt P2)[k]? = some (x k)) ∧
      get_p_optimize P2 = p ∧
      P2 = { runMutations J ops (set_p_optimize Q p) with
             _p_opt_ipopt := get_p_optimize_ipopt P2 } := by
  obtain ⟨h1, h2⟩ := runMutations_p_opt J ops (set_p_optimize Q p)
  have e1 : (set_p_optimize Q p)._p_opt = p := rfl
  have e2 : (set_p_optimize Q p)._p_opt_ipopt = List.replicate p.length 0 := rfl
  rw [e1] at h1
  rw [e2] at h2
  have hlen : (runMutations J ops (set_p_optimize Q p))._p_opt_ipopt.length
      = (runMutations J ops (set_p_optimize Q p))._p_opt.length := by
    rw [h1, h2, List.length_replicate]
  refine ⟨_, finalize_solution_eq _ hlen status nv x z_L z_U m g lambda obj_value,
    ?_, ?_, h1, rfl⟩
  · simp only [get_p_optimize_ipopt, h1, List.length_map, List.length_range, hp]
  · intro k hk
    simp only [get_p_optimize_ipopt, h1, hp]
    rw [List.getElem?_eq_getElem (by simpa using hk)]
    simp

/-- C13 instance: the small adapter is configured, answers one gradient request, and
receives the solution `[0, 7]`. -/
theorem finalize_solution_stores_witness :
    ∃ P2 : Plant Int,
      finalize_solution
        (runMutations sampleJacobian [Mutation.set_x0 [1, 0], Mutation.jacobian [0, 7]]
          (set_p_optimize (set_p_dynamic (Plant.fresh 0 0 0 0 0) [10, 0, 60]) [3, 4]))
        0 2 smallX zeroBuf zeroBuf 1 zeroBuf zeroBuf 0 = some P2 ∧
      (get_p_optimize_ipopt P2).length = 2 * 1 ∧
      (∀ k, k < 2 * 1 → (get_p_optimize_ipopt P2)[k]? = some (smallX k)) ∧
      get_p_optimize P2 = [3, 4] ∧
      P2 = { runMutations sampleJacobian
               [Mutation.set_x0 [1, 0], Mutation.jacobian [0, 7]]
               (set_p_optimize (set_p_dynamic (Plant.fresh 0 0 0 0 0) [10, 0, 60]) [3, 4])
             with _p_opt_ipopt := get_p_optimize_ipopt P2 } :=
  finalize_solution_stores sampleJacobian (set_p_dynamic (Plant.fresh 0 0 0 0 0) [10, 0, 60])
    [3, 4] 1 (by decide) [Mutation.set_x0 [1, 0], Mutation.jacobian [0, 7]] 0 2 smallX
    zeroBuf zeroBuf 1 zeroBuf zeroBuf 0

/-- C14: in every adapter state `get_upper_bound()` is the stored lower-bound vector.
After `set_lower_bound(l)` and `set_upper_bound(u)` it returns `l`, while
`get_bounds_info`, whenever it answers, reports the entries of `u` as variable upper
bounds.  In `main`'s adapter, where `l` is all `0` and `u` is all `360`, the accessor
returns `l`, which differs from `u`. -/
theorem get_upper_bound_returns_lower {α : Type} (P : Plant α) (l u : List α) (nv m : Int)
    (x_l x_u g_l g_u : Buf α) :
    get_upper_bound P = P._lower_bound ∧
    get_upper_bound (set_upper_bound (set_lower_bound P l) u) = l ∧
    (set_upper_bound (set_lower_bound P l) u)._upper_bound = u ∧
    (∀ r : BoundsInfo α,
      get_bounds_info (set_upper_bound (set_lower_bound P l) u) nv x_l x_u m g_l g_u
        = some r → ∀ k, k < u.length → u[k]? = some (r.x_u k)) ∧
    (∃ l2 u2 : List Int, l2 ≠ u2 ∧
      mainPlant = set_off_bound (set_on_bound (set_upper_bound (set_lower_bound
        (set_tf (set_t0 (set_p_optimize (set_p_dynamic (Plant.fresh 0 0 0 0 0)
          main_p_dynamic) main_p_opt) 0) 360) l2) u2) main_on_bound) main_off_bound ∧
      get_upper_bound mainPlant = l2 ∧ get_upper_bound mainPlant ≠ u2 ∧
      ∃ r : BoundsInfo Int,
        get_bounds_info mainPlant 20 zeroBuf zeroBuf 19 zeroBuf zeroBuf = some r ∧
        ∀ k, k < 20 → u2[k]? = some (r.x_u k)) := by
  refine ⟨rfl, rfl, rfl, ?_, ?_⟩
  · intro r hr k hk
    have h := (get_bounds_info_variable_bounds _ nv x_l x_u m g_l g_u r hr).2
    have e : (set_upper_bound (set_lower_bound P l) u)._upper_bound = u := rfl
    rw [h, e]
    simp only [if_pos hk]
    rw [List.getElem?_eq_getElem hk]
    rfl
  · refine ⟨List.replicate 20 0, List.replicate 20 360, by decide, rfl, rfl, by decide, ?_⟩
    obtain ⟨r, hr, -, -, hxu, -, -⟩ :=
      get_bounds_info_spec mainPlant 10 (by decide) 20 zeroBuf zeroBuf 19 zeroBuf zeroBuf
        6 60 20 120 (by decide) (by decide) (by decide) (by decide)
    refine ⟨r, hr, ?_⟩
    intro k hk
    have e : mainPlant._upper_bound = List.replicate 20 360 := rfl
    have hk2 : k < (List.replicate 20 (360 : Int)).length := by simpa using hk
    rw [hxu, e, if_pos hk2, List.getElem?_eq_getElem hk2]
    rfl

end SwitchingTimes
